import Mathlib

/-!
Verification of the `@prismamedia/ts-async-event-emitter` repository.

The repository contains two emitter classes:
* the legacy `EventEmitter` (registry of raw listener references, `emit` /
  `emitSerial` over a spread copy of the listener set), and
* the current `AsyncEventEmitter` (registry `#listenersByName` mapping event
  names to insertion-ordered sets of wrapped listeners, an error-propagation
  protocol around every listener registered on an ordinary channel, and the
  `wait` / `throwOnError` / `race` helpers).

The shallow embedding below models both.  JavaScript `Map` / `Set` values are
modelled as insertion-ordered association lists / duplicate-free lists;
reference identity of listener closures is modelled by the `Ident` type
(`rawRef` for a user-supplied function stored unwrapped, `tok` for a freshly
created wrapper closure, numbered by a counter in the state).  Listener
behaviour is supplied through an environment `Env` assigning every raw
listener id an effect: succeed, reject with a value, subscribe another
listener, or invoke an unsubscribe handle.  Asynchronous execution is
modelled sequentially: every listener body in the source settles
synchronously up to its `await` points, and dispatch (`Array.from` over the
live set) invokes listeners in iteration order, so the sequential model
reproduces the observable registry states and invocation traces.
-/

namespace AsyncEE

/-- Event payloads and failure causes (JavaScript `any`) are modelled by `Int`. -/
abbrev Data := Int

/-- Event identifiers: strings, numbers, user symbols, and the reserved
`errorMonitor` symbol imported from `node:events`. -/
inductive EventName where
  | str (s : String)
  | num (n : Nat)
  | sym (id : Nat)
  | monitor
deriving DecidableEq, Repr

/-- The reserved `"error"` identifier. -/
def errName : EventName := .str "error"

/-- Whether the identifier is one of the two channels whose listeners are
stored unwrapped (`eventName === "error" || eventName === errorMonitor` in
the source, up to quote style). -/
def isErrChannel (e : EventName) : Bool :=
  decide (e = errName) || decide (e = EventName.monitor)

/-- What a stored listener closure does when invoked. -/
inductive Behavior where
  | plain (lid : Nat)
  | once (lid : Nat)
  | resolveOnce (pid : Nat)
  | raceResolve (pid : Nat)
deriving DecidableEq, Repr

/-- Reference identity of a stored listener: either the raw user function
itself (listeners on the error channels are stored unwrapped) or a freshly
allocated wrapper closure identified by a token. -/
inductive Ident where
  | rawRef (lid : Nat)
  | tok (t : Nat)
deriving DecidableEq, Repr

/-- One member of a `#listenersByName` set: its reference identity, whether
the error-propagation wrapper applies to it, and its behaviour. -/
structure Stored where
  ident : Ident
  errWrapped : Bool
  beh : Behavior
deriving DecidableEq, Repr

/-- The mutable state of an `AsyncEventEmitter`: the `#listenersByName` map
(insertion-ordered), the handle lists of pending `race` promises (each real
`race` resolver closure captures the `offs` array; we keep those arrays in
the state so the resolver behaviour can reach them), and the counter
producing fresh wrapper-closure identities. -/
structure EmState where
  registry : List (EventName × List Stored)
  races : List (Nat × List (EventName × Stored))
  nextTok : Nat
deriving DecidableEq, Repr

def emptyState : EmState := ⟨[], [], 0⟩

/-! ### Insertion-ordered map primitives (JavaScript `Map`) -/

def keyFind? [DecidableEq κ] (k : κ) : List (κ × β) → Option β
  | [] => none
  | (k2, v) :: rest => if k = k2 then some v else keyFind? k rest

def hasKey [DecidableEq κ] (k : κ) : List (κ × β) → Bool
  | [] => false
  | (k2, _) :: rest => if k = k2 then true else hasKey k rest

/-- Model of `Map.set`: overwrite in place when the key exists, append otherwise. -/
def keySet [DecidableEq κ] (k : κ) (v : β) : List (κ × β) → List (κ × β)
  | [] => [(k, v)]
  | (k2, v2) :: rest => if k = k2 then (k, v) :: rest else (k2, v2) :: keySet k v rest

/-- Model of `Map.delete`. -/
def keyDel [DecidableEq κ] (k : κ) : List (κ × β) → List (κ × β)
  | [] => []
  | (k2, v2) :: rest => if k = k2 then rest else (k2, v2) :: keyDel k rest

/-- The listener set for an identifier; `[]` both when the key is absent and
when it is mapped to an empty set. -/
def lookupLs (e : EventName) (m : List (EventName × List Stored)) : List Stored :=
  (keyFind? e m).getD []

/-- Model of `Set.add`: no-op when the reference is already a member, append otherwise. -/
def setAdd (w : Stored) (ls : List Stored) : List Stored :=
  if w ∈ ls then ls else ls ++ [w]

/-! ### The subscription API of `AsyncEventEmitter` -/

/-- Source `off(eventName, listener)` (first branch): look the set up,
delete the reference, and prune the map entry when the set became empty.
The `listener[unsubscribeFromSignalAbortEvent]?.()` call only detaches an
external abort-event subscription and does not touch the registry. -/
def offOne (st : EmState) (e : EventName) (w : Stored) : EmState :=
  if hasKey e st.registry then
    let ls := lookupLs e st.registry
    if w ∈ ls then
      let rem := ls.erase w
      if rem = [] then { st with registry := keyDel e st.registry }
      else { st with registry := keySet e rem st.registry }
    else st
  else st

/-- Source `off(eventName)` (second branch): call `off(eventName, l)` for every
member of the current set. -/
def offName (st : EmState) (e : EventName) : EmState :=
  if hasKey e st.registry then
    (lookupLs e st.registry).foldl (fun acc w => offOne acc e w) st
  else st

/-- Source `off()` (third branch): per-listener removal over the whole map. -/
def offAll (st : EmState) : EmState :=
  st.registry.foldl (fun acc p => p.2.foldl (fun a w => offOne a p.1 w) acc) st

/-- The lazy creation of the map entry (`if (!listeners) set(eventName, new Set())`). -/
def ensureKey (st : EmState) (e : EventName) : EmState :=
  if hasKey e st.registry then st
  else { st with registry := st.registry ++ [(e, [])] }

/-- Build the `wrappedListener` of `on` / `once`.  `on` stores the raw
function itself on the error channels and a fresh error-wrapping closure
elsewhere; the `once` wrapper is always a fresh closure (error-wrapped
exactly when the identifier is an ordinary one). -/
def mkStored (st : EmState) (e : EventName) (lid : Nat) (isOnce : Bool) :
    Stored × EmState :=
  if isOnce then
    (⟨.tok st.nextTok, !(isErrChannel e), .once lid⟩, { st with nextTok := st.nextTok + 1 })
  else if isErrChannel e then
    (⟨.rawRef lid, false, .plain lid⟩, st)
  else
    (⟨.tok st.nextTok, true, .plain lid⟩, { st with nextTok := st.nextTok + 1 })

/-- Source `listeners.add(wrappedListener)` on the set captured for `e`. -/
def addStored (st : EmState) (e : EventName) (w : Stored) : EmState :=
  { st with registry := keySet e (setAdd w (lookupLs e st.registry)) st.registry }

/-- Result of a registration: `stored = none` when `signal.throwIfAborted()`
threw, in which case `state` is the state at the moment of the throw. -/
structure OnOutcome where
  stored : Option Stored
  state : EmState
deriving DecidableEq, Repr

/-- The single-listener `on` (and `once` via `isOnce`), after the argument
validation of the source (which throws before any registry mutation and is
therefore implicit in the model types).  Mirrors the source order: the map
entry is created first, then the wrapper closure, then
`signal.throwIfAborted()` runs, and only then is the wrapper added to the
set — so an already-aborted signal leaves the (possibly empty) entry behind.
`signal`: `none` = no signal, `some b` = a signal that is aborted iff `b`. -/
def onSingle (st : EmState) (e : EventName) (lid : Nat) (isOnce : Bool)
    (signal : Option Bool) : OnOutcome :=
  let st1 := ensureKey st e
  let (w, st2) := mkStored st1 e lid isOnce
  match signal with
  | some true => ⟨none, st2⟩
  | _ => ⟨some w, addStored st2 e w⟩

/-- The bulk `on(configByName, signal)`: sequential single registrations,
aborted at the first throw (the loop body does not catch).  The config is
given pre-flattened in the iteration order of the source
(property names then symbols, each value array in order, nulls skipped). -/
def onMany (st : EmState) (signal : Option Bool) :
    List (EventName × Nat) → Option (List Stored) × EmState
  | [] => (some [], st)
  | (e, lid) :: rest =>
    match onSingle st e lid false signal with
    | ⟨none, st1⟩ => (none, st1)
    | ⟨some w, st1⟩ =>
      match onMany st1 signal rest with
      | (none, st2) => (none, st2)
      | (some ws, st2) => (some (w :: ws), st2)

/-- The resolver closure that `wait` / `race` subscribe through `this.on`
(no signal is forwarded to `on`; the helpers manage their own signal). -/
def mkResolver (st : EmState) (e : EventName) (pid : Nat) (race : Bool) :
    Stored × EmState :=
  (⟨.tok st.nextTok, !(isErrChannel e),
    if race then .raceResolve pid else .resolveOnce pid⟩,
   { st with nextTok := st.nextTok + 1 })

def onResolver (st : EmState) (e : EventName) (pid : Nat) (race : Bool) :
    Stored × EmState :=
  let st1 := ensureKey st e
  let (w, st2) := mkResolver st1 e pid race
  (w, addStored st2 e w)

/-- Result of `wait` registration: `handle = none` when the supplied signal
was already aborted, in which case `signal?.throwIfAborted()` threw before
any subscription was made. -/
structure WaitOutcome where
  handle : Option (EventName × Stored)
  state : EmState
deriving DecidableEq, Repr

/-- Source `wait(eventName, maybeSignal)` up to the point where its promise is
pending: the one-shot resolver is subscribed; `pid` identifies the pending
promise.  `preAborted` models a signal that is already aborted when `wait`
is entered (a fresh `AbortSignal.timeout` is never pre-aborted). -/
def waitReg (st : EmState) (e : EventName) (pid : Nat) (preAborted : Bool) :
    WaitOutcome :=
  if preAborted then ⟨none, st⟩
  else
    let (w, st1) := onResolver st e pid false
    ⟨some (e, w), st1⟩

/-- How a pending `wait` / `race` promise settles. -/
inductive Outcome where
  | resolved (d : Data)
  | aborted (names : List EventName)
deriving DecidableEq, Repr

/-- The `onAbort` handler of `wait` firing (timeout elapsed or signal
aborted): `off()` runs, then the promise is rejected with an `AbortError`
naming the awaited identifier. -/
def waitAbortFire (st : EmState) (e : EventName) (w : Stored) :
    EmState × Outcome :=
  (offOne st e w, .aborted [e])

/-- Result of `race` registration. -/
structure RaceOutcome where
  handles : Option (List (EventName × Stored))
  abortArmed : Bool
  state : EmState
deriving DecidableEq, Repr

def raceRegGo (st : EmState) (pid : Nat) :
    List EventName → List (EventName × Stored) × EmState
  | [] => ([], st)
  | e :: rest =>
    let (w, st1) := onResolver st e pid true
    let (hs, st2) := raceRegGo st1 pid rest
    ((e, w) :: hs, st2)

/-- Source `race(eventNames, maybeSignal)` up to the point where its promise is
pending: a single identifier degenerates to `wait`; otherwise
`signal?.throwIfAborted()` runs before any subscription, then one resolver
per identifier is subscribed and the `offs` array is recorded.
`abortArmed` records whether an `onAbort` hook was attached to a signal. -/
def raceReg (st : EmState) (names : List EventName) (pid : Nat)
    (signal : Option Bool) : RaceOutcome :=
  match names with
  | [n] =>
    match waitReg st n pid (signal = some true) with
    | ⟨none, st1⟩ => ⟨none, false, st1⟩
    | ⟨some h, st1⟩ => ⟨some [h], signal.isSome, st1⟩
  | _ =>
    if signal = some true then ⟨none, false, st⟩
    else
      let (hs, st1) := raceRegGo st pid names
      ⟨some hs, signal.isSome,
       { st1 with races := st1.races ++ [(pid, hs)] }⟩

/-- The `onAbort` handler of `race` firing: every recorded handle is
invoked, then the promise is rejected with an `AbortError` naming all the
awaited identifiers. -/
def raceAbortFire (st : EmState) (pid : Nat) (names : List EventName) :
    EmState × Outcome :=
  (((keyFind? pid st.races).getD []).foldl (fun acc h => offOne acc h.1 h.2) st,
   .aborted names)

/-! ### Queries -/

/-- Source `eventNames()`: the keys of the map, in insertion order. -/
def eventNames (st : EmState) : List EventName := st.registry.map Prod.fst

/-- Source `eventListenerCount(eventName)`: `get(eventName)?.size ?? 0`. -/
def eventListenerCount (st : EmState) (e : EventName) : Nat :=
  (lookupLs e st.registry).length

/-! ### Dispatch -/

/-- What invoking a raw user listener does, supplied as an environment:
succeed, reject, subscribe a listener (`this.on(e, l)` with no signal), or
invoke an unsubscribe handle. -/
inductive Effect where
  | pure
  | fail (err : Data)
  | subscribeOn (e : EventName) (lid : Nat)
  | unsub (e : EventName) (w : Stored)
deriving DecidableEq, Repr

abbrev Env := Nat → Data → Effect

/-- Observable events of a dispatch: a raw listener invoked with a payload,
or a pending `wait` / `race` promise `pid` resolved with a payload. -/
inductive Ev where
  | call (lid : Nat) (d : Data)
  | resolve (pid : Nat) (d : Data)
deriving DecidableEq, Repr

def applyEffect (env : Env) (lid : Nat) (d : Data) (st : EmState) :
    EmState × Option Data :=
  match env lid d with
  | .pure => (st, none)
  | .fail err => (st, some err)
  | .subscribeOn e lid2 => ((onSingle st e lid2 false none).state, none)
  | .unsub e w => (offOne st e w, none)

/-- The body of a stored listener, without the error-propagation protocol:
`plain` runs the raw listener; `once` runs `off()` first and then the raw
listener; the `wait` resolver runs `off()` and resolves its promise; the
`race` resolver invokes every handle of its race and resolves its promise. -/
def runInner (env : Env) (e : EventName) (w : Stored) (d : Data)
    (st : EmState) : EmState × List Ev × Option Data :=
  match w.beh with
  | .plain lid =>
    let (st1, r) := applyEffect env lid d st
    (st1, [.call lid d], r)
  | .once lid =>
    let st0 := offOne st e w
    let (st1, r) := applyEffect env lid d st0
    (st1, [.call lid d], r)
  | .resolveOnce pid =>
    (offOne st e w, [.resolve pid d], none)
  | .raceResolve pid =>
    (((keyFind? pid st.races).getD []).foldl (fun acc h => offOne acc h.1 h.2) st,
     [.resolve pid d], none)

mutual

/-- One wrapped-listener invocation.  When the inner body rejects and the
listener carries the error wrapper, the failure is emitted on the
`errorMonitor` channel; if that emission rejects, its failure propagates;
otherwise, if the `"error"` set is non-empty the failure is re-emitted
there and the wrapped invocation settles like that emission does, else the
original failure is re-thrown.  The fuel bounds recursion depth;
exhaustion returns `none` (a computation the source would not finish
either, e.g. an error-wrapped listener stored on the `"error"` channel). -/
def invokeL : Nat → Env → EventName → Stored → Data → EmState →
    Option (EmState × List Ev × Option Data)
  | 0, _, _, _, _, _ => none
  | fuel + 1, env, e, w, d, st =>
    let (st1, tr, r) := runInner env e w d st
    match r with
    | none => some (st1, tr, none)
    | some err =>
      if w.errWrapped then
        match emitF fuel env EventName.monitor err st1 with
        | none => none
        | some (st2, tr2, some err2) => some (st2, tr ++ tr2, some err2)
        | some (st2, tr2, none) =>
          if lookupLs errName st2.registry ≠ [] then
            match emitF fuel env errName err st2 with
            | none => none
            | some (st3, tr3, r3) => some (st3, tr ++ tr2 ++ tr3, r3)
          else some (st2, tr ++ tr2, some err)
      else some (st1, tr, some err)

/-- The iteration of `Array.from(listeners, l => l(eventData))` over the
live set: the next listener is the first member of the current set that
has not been visited yet (members removed before being reached are
skipped, members appended during the iteration are reached), and the
aggregate failure is the first rejection in invocation order
(`Promise.all`). -/
def dispatchGo : Nat → Env → EventName → Data → EmState → List Stored →
    List Ev → Option Data → Option (EmState × List Ev × Option Data)
  | 0, _, _, _, _, _, _, _ => none
  | fuel + 1, env, e, d, st, done, tr, firstErr =>
    match (lookupLs e st.registry).find? (fun w => decide (w ∉ done)) with
    | none => some (st, tr, firstErr)
    | some w =>
      match invokeL fuel env e w d st with
      | none => none
      | some (st1, tr1, r1) =>
        dispatchGo fuel env e d st1 (done ++ [w]) (tr ++ tr1) (firstErr <|> r1)

/-- Source `emit(eventName, eventData)`: resolve immediately when the set is
missing or empty, otherwise iterate it and await every invocation. -/
def emitF : Nat → Env → EventName → Data → EmState →
    Option (EmState × List Ev × Option Data)
  | 0, _, _, _, _ => none
  | fuel + 1, env, e, d, st =>
    if lookupLs e st.registry = [] then some (st, [], none)
    else dispatchGo fuel env e d st [] [] none

end

/-- A sequence of `emit` calls, accumulating the trace. -/
def emitMany (env : Env) : List (Nat × EventName × Data) → EmState →
    Option (EmState × List Ev)
  | [], st => some (st, [])
  | (fuel, e, d) :: rest, st =>
    match emitF fuel env e d st with
    | none => none
    | some (st1, tr, _) =>
      match emitMany env rest st1 with
      | none => none
      | some (st2, tr2) => some (st2, tr ++ tr2)

/-- How many times the raw listener `lid` was invoked in a trace. -/
def countCalls (lid : Nat) (tr : List Ev) : Nat :=
  tr.countP fun ev => match ev with
    | .call l _ => decide (l = lid)
    | _ => false

/-! ### The legacy `EventEmitter` (raw listener references, serial dispatch) -/

structure LegacyState where
  table : List (EventName × List Nat)
deriving DecidableEq, Repr

def legacyEmpty : LegacyState := ⟨[]⟩

def legacyGet (st : LegacyState) (e : EventName) : List Nat :=
  (keyFind? e st.table).getD []

/-- Legacy `on`: `getEventListenerSet(eventName).add(eventListener)` — the
raw reference goes into the set, so duplicate references collapse. -/
def legacyOn (st : LegacyState) (e : EventName) (lid : Nat) : LegacyState :=
  let ls := legacyGet st e
  let ls2 := if lid ∈ ls then ls else ls ++ [lid]
  ⟨keySet e ls2 st.table⟩

/-- Legacy listener outcomes: `none` = settles successfully, `some err` =
throws or rejects with `err`. -/
abbrev LEnv := Nat → Data → Option Data

def serialGo (lenv : LEnv) (d : Data) : List Nat → List Ev × Option Data
  | [] => ([], none)
  | lid :: rest =>
    match lenv lid d with
    | some err => ([.call lid d], some err)
    | none =>
      let (tr, r) := serialGo lenv d rest
      (.call lid d :: tr, r)

/-- Legacy `emitSerial`: awaits each listener in set order and lets the
first failure propagate, leaving the rest uninvoked. -/
def legacyEmitSerial (lenv : LEnv) (st : LegacyState) (e : EventName)
    (d : Data) : List Ev × Option Data :=
  match keyFind? e st.table with
  | none => ([], none)
  | some ls => serialGo lenv d ls

/-- Legacy fan-out `emit`: a spread copy of the set is taken first, every
listener is invoked, and the aggregate fails with the first rejection in
order. -/
def legacyEmit (lenv : LEnv) (st : LegacyState) (e : EventName) (d : Data) :
    List Ev × Option Data :=
  match keyFind? e st.table with
  | none => ([], none)
  | some ls =>
    (ls.map (fun lid => Ev.call lid d),
     (ls.map (fun lid => lenv lid d)).foldl (fun a r => a <|> r) none)

/-! ### Lemmas about the map primitives -/

section KeyLemmas

variable {κ β : Type} [DecidableEq κ]

theorem keyFind?_keySet_self (k : κ) (v : β) (m : List (κ × β)) :
    keyFind? k (keySet k v m) = some v := by
  induction m with
  | nil => simp [keySet, keyFind?]
  | cons p rest ih =>
    by_cases h : k = p.1
    · simp [keySet, keyFind?, h]
    · simp [keySet, keyFind?, h, ih]

theorem keyFind?_keySet_ne {k k2 : κ} (v : β) (m : List (κ × β))
    (h : k2 ≠ k) : keyFind? k2 (keySet k v m) = keyFind? k2 m := by
  induction m with
  | nil => simp [keySet, keyFind?, h]
  | cons p rest ih =>
    by_cases h2 : k = p.1
    · subst h2
      simp [keySet, keyFind?, h]
    · by_cases h3 : k2 = p.1
      · simp [keySet, keyFind?, h2, h3]
      · simp [keySet, keyFind?, h2, h3, ih]

theorem keyFind?_keyDel_ne {k k2 : κ} (m : List (κ × β))
    (h : k2 ≠ k) : keyFind? k2 (keyDel k m) = keyFind? k2 m := by
  induction m with
  | nil => simp [keyDel, keyFind?]
  | cons p rest ih =>
    by_cases h2 : k = p.1
    · subst h2
      simp [keyDel, keyFind?, h]
    · by_cases h3 : k2 = p.1
      · simp [keyDel, keyFind?, h2, h3]
      · simp [keyDel, keyFind?, h2, h3, ih]

theorem hasKey_false_keyFind? {k : κ} {m : List (κ × β)}
    (h : hasKey k m = false) : keyFind? k m = none := by
  induction m with
  | nil => simp [keyFind?]
  | cons p rest ih =>
    by_cases h2 : k = p.1
    · simp [hasKey, h2] at h
    · simp [hasKey, h2] at h
      simp [keyFind?, h2, ih h]

theorem keyFind?_some_hasKey {k : κ} {m : List (κ × β)} {v : β}
    (h : keyFind? k m = some v) : hasKey k m = true := by
  induction m with
  | nil => simp [keyFind?] at h
  | cons p rest ih =>
    by_cases h2 : k = p.1
    · simp [hasKey, h2]
    · simp [keyFind?, h2] at h
      simp [hasKey, h2, ih h]

theorem mem_keyDel {p : κ × β} {k : κ} {m : List (κ × β)}
    (h : p ∈ keyDel k m) : p ∈ m := by
  induction m with
  | nil => simp [keyDel] at h
  | cons q rest ih =>
    by_cases h2 : k = q.1
    · simp [keyDel, h2] at h
      exact List.mem_cons_of_mem _ h
    · simp [keyDel, h2] at h
      rcases h with h | h
      · simp [h]
      · exact List.mem_cons_of_mem _ (ih h)

theorem mem_keySet {p : κ × β} {k : κ} {v : β} {m : List (κ × β)}
    (hnd : (m.map Prod.fst).Nodup) (h : p ∈ keySet k v m) :
    p = (k, v) ∨ (p ∈ m ∧ p.1 ≠ k) := by
  induction m with
  | nil => simp [keySet] at h; simp [h]
  | cons q rest ih =>
    simp only [List.map_cons, List.nodup_cons] at hnd
    by_cases h2 : k = q.1
    · subst h2
      simp [keySet] at h
      rcases h with h | h
      · left; simp [h]
      · right
        refine ⟨List.mem_cons_of_mem _ h, ?_⟩
        intro hk
        exact hnd.1 (hk ▸ List.mem_map_of_mem Prod.fst h)
    · simp [keySet, h2] at h
      rcases h with h | h
      · right
        refine ⟨by simp [h], ?_⟩
        simp [h]
        exact fun hq => h2 hq.symm
      · rcases ih hnd.2 h with h3 | h3
        · exact Or.inl h3
        · exact Or.inr ⟨List.mem_cons_of_mem _ h3.1, h3.2⟩

theorem keys_keySet_hasKey {k : κ} {m : List (κ × β)} (v : β)
    (h : hasKey k m = true) :
    (keySet k v m).map Prod.fst = m.map Prod.fst := by
  induction m with
  | nil => simp [hasKey] at h
  | cons q rest ih =>
    by_cases h2 : k = q.1
    · simp [keySet, h2]
    · simp [hasKey, h2] at h
      simp [keySet, h2, ih h]

theorem keys_keySet_not {k : κ} {m : List (κ × β)} (v : β)
    (h : hasKey k m = false) :
    (keySet k v m).map Prod.fst = m.map Prod.fst ++ [k] := by
  induction m with
  | nil => simp [keySet]
  | cons q rest ih =>
    by_cases h2 : k = q.1
    · simp [hasKey, h2] at h
    · simp [hasKey, h2] at h
      simp [keySet, h2, ih h]

theorem keys_keyDel_sublist (k : κ) (m : List (κ × β)) :
    ((keyDel k m).map Prod.fst).Sublist (m.map Prod.fst) := by
  induction m with
  | nil => simp [keyDel]
  | cons q rest ih =>
    by_cases h2 : k = q.1
    · simp [keyDel, h2]
    · simp [keyDel, h2]
      exact ih

theorem hasKey_eq_mem_keys {k : κ} {m : List (κ × β)} :
    hasKey k m = true ↔ k ∈ m.map Prod.fst := by
  induction m with
  | nil => simp [hasKey]
  | cons q rest ih =>
    by_cases h2 : k = q.1
    · simp [hasKey, h2]
    · simp [hasKey, h2, ih]

theorem hasKey_keyDel_self {k : κ} {m : List (κ × β)}
    (hnd : (m.map Prod.fst).Nodup) : hasKey k (keyDel k m) = false := by
  induction m with
  | nil => simp [keyDel, hasKey]
  | cons q rest ih =>
    simp only [List.map_cons, List.nodup_cons] at hnd
    by_cases h2 : k = q.1
    · subst h2
      simp only [keyDel, if_pos rfl]
      rw [Bool.eq_false_iff]
      intro hmem
      exact hnd.1 (hasKey_eq_mem_keys.mp hmem)
    · simp [keyDel, h2, hasKey, ih hnd.2]

end KeyLemmas

/-! ### The registry invariants -/

/-- The registry keys are pairwise distinct (automatic for a JavaScript
`Map`, an invariant of the association-list model). -/
def GoodKeys (st : EmState) : Prop := (st.registry.map Prod.fst).Nodup

/-- The invariant claimed by the specification: the registry never maps an
identifier to an empty listener collection. -/
def NoEmptySets (st : EmState) : Prop := ∀ p ∈ st.registry, p.2 ≠ []

def Tidy (st : EmState) : Prop := GoodKeys st ∧ NoEmptySets st

instance : DecidablePred NoEmptySets := fun st =>
  inferInstanceAs (Decidable (∀ p ∈ st.registry, p.2 ≠ []))

instance : DecidablePred GoodKeys := fun st =>
  inferInstanceAs (Decidable (st.registry.map Prod.fst).Nodup)

instance : DecidablePred Tidy := fun st =>
  inferInstanceAs (Decidable (GoodKeys st ∧ NoEmptySets st))

theorem setAdd_ne_nil (w : Stored) (ls : List Stored) : setAdd w ls ≠ [] := by
  unfold setAdd
  by_cases h : w ∈ ls
  · simp [h]
    exact List.ne_nil_of_mem h
  · simp [h]

theorem tidy_offOne {st : EmState} (e : EventName) (w : Stored)
    (h : Tidy st) : Tidy (offOne st e w) := by
  simp only [offOne]
  split
  · split
    · split
      case isTrue h1 h2 h3 =>
        refine ⟨(keys_keyDel_sublist e st.registry).nodup h.1, ?_⟩
        intro p hp
        exact h.2 p (mem_keyDel hp)
      case isFalse h1 h2 h3 =>
        refine ⟨?_, ?_⟩
        · show (List.map Prod.fst (keySet e _ st.registry)).Nodup
          rw [keys_keySet_hasKey _ h1]
          exact h.1
        · intro p hp
          rcases mem_keySet h.1 hp with h4 | h4
          · rw [h4]
            exact h3
          · exact h.2 p h4.1
    · exact h
  · exact h

theorem tidy_foldl_offOne {e : EventName} (ls : List Stored) {st : EmState}
    (h : Tidy st) : Tidy (ls.foldl (fun acc w => offOne acc e w) st) := by
  induction ls generalizing st with
  | nil => simpa using h
  | cons w rest ih => exact ih (tidy_offOne e w h)

theorem tidy_foldl_offPairs (hs : List (EventName × Stored)) {st : EmState}
    (h : Tidy st) : Tidy (hs.foldl (fun acc p => offOne acc p.1 p.2) st) := by
  induction hs generalizing st with
  | nil => simpa using h
  | cons p rest ih => exact ih (tidy_offOne p.1 p.2 h)

theorem tidy_offName {st : EmState} (e : EventName) (h : Tidy st) :
    Tidy (offName st e) := by
  unfold offName
  by_cases h1 : hasKey e st.registry
  · simp only [h1, if_pos]
    exact tidy_foldl_offOne _ h
  · simpa [h1] using h

theorem tidy_offAll {st : EmState} (h : Tidy st) : Tidy (offAll st) := by
  unfold offAll
  generalize st.registry = entries
  induction entries generalizing st with
  | nil => simpa using h
  | cons p rest ih => exact ih (tidy_foldl_offOne p.2 h)

theorem registry_ensureKey {st : EmState} {e : EventName} {p} :
    p ∈ (ensureKey st e).registry → p ∈ st.registry ∨ p = (e, []) := by
  unfold ensureKey
  split
  · exact Or.inl
  · intro hp
    rcases List.mem_append.mp hp with h | h
    · exact Or.inl h
    · exact Or.inr (by simpa using h)

theorem goodKeys_ensureKey {st : EmState} (e : EventName) (h : GoodKeys st) :
    GoodKeys (ensureKey st e) := by
  unfold ensureKey
  split
  · exact h
  case isFalse h1 =>
    show (List.map Prod.fst (st.registry ++ [(e, [])])).Nodup
    simp only [List.map_append, List.map_cons, List.map_nil]
    rw [List.nodup_append]
    refine ⟨h, List.nodup_singleton e, ?_⟩
    intro a ha hb
    simp only [List.mem_singleton] at hb
    subst hb
    exact h1 (hasKey_eq_mem_keys.mpr ha)

theorem hasKey_ensureKey (st : EmState) (e : EventName) :
    hasKey e (ensureKey st e).registry = true := by
  unfold ensureKey
  split
  case isTrue h1 => exact h1
  case isFalse h1 =>
    show hasKey e (st.registry ++ [(e, [])]) = true
    rw [hasKey_eq_mem_keys]
    simp

theorem registry_mkStored (st : EmState) (e : EventName) (lid : Nat)
    (isOnce : Bool) : (mkStored st e lid isOnce).2.registry = st.registry := by
  unfold mkStored
  split <;> try rfl
  split <;> rfl

theorem tidy_addAfterEnsure {st : EmState} (e : EventName) (w : Stored)
    (st2 : EmState) (h : Tidy st)
    (hreg : st2.registry = (ensureKey st e).registry) :
    Tidy (addStored st2 e w) := by
  unfold addStored
  constructor
  · unfold GoodKeys
    simp only [hreg]
    rw [keys_keySet_hasKey _ (hasKey_ensureKey st e)]
    exact goodKeys_ensureKey e h.1
  · intro p hp
    simp only [hreg] at hp
    rcases mem_keySet (goodKeys_ensureKey e h.1) hp with h4 | h4
    · simp [h4]
      exact setAdd_ne_nil _ _
    · rcases registry_ensureKey h4.1 with h5 | h5
      · exact h.2 p h5
      · exact absurd (by simp [h5]) h4.2

theorem tidy_onSingle {st : EmState} (e : EventName) (lid : Nat)
    (isOnce : Bool) {sig : Option Bool} (h : Tidy st)
    (hs : sig ≠ some true) : Tidy (onSingle st e lid isOnce sig).state := by
  unfold onSingle
  match sig, hs with
  | none, _ =>
    exact tidy_addAfterEnsure e _ _ h (registry_mkStored _ e lid isOnce)
  | some false, _ =>
    exact tidy_addAfterEnsure e _ _ h (registry_mkStored _ e lid isOnce)

theorem tidy_onMany {sig : Option Bool} (cfg : List (EventName × Nat))
    {st : EmState} (h : Tidy st) (hs : sig ≠ some true) :
    Tidy (onMany st sig cfg).2 := by
  induction cfg generalizing st with
  | nil => simpa [onMany] using h
  | cons p rest ih =>
    unfold onMany
    have h1 := tidy_onSingle p.1 p.2 false h hs
    match honc : onSingle st p.1 p.2 false sig with
    | ⟨none, st1⟩ =>
      simpa [honc] using (honc ▸ h1 : Tidy (OnOutcome.mk none st1).state)
    | ⟨some w, st1⟩ =>
      have h2 : Tidy st1 := by
        have := honc ▸ h1
        simpa using this
      have h3 := ih h2
      match honm : onMany st1 sig rest with
      | (none, st2) =>
        simpa [honm] using (honm ▸ h3 : Tidy (none, st2).2)
      | (some ws, st2) =>
        simpa [honm] using (honm ▸ h3 : Tidy (some ws, st2).2)

theorem registry_mkResolver (st : EmState) (e : EventName) (pid : Nat)
    (race : Bool) : (mkResolver st e pid race).2.registry = st.registry := rfl

theorem tidy_onResolver {st : EmState} (e : EventName) (pid : Nat)
    (race : Bool) (h : Tidy st) : Tidy (onResolver st e pid race).2 := by
  unfold onResolver
  exact tidy_addAfterEnsure e _ _ h (registry_mkResolver _ e pid race)

theorem tidy_waitReg {st : EmState} (e : EventName) (pid : Nat)
    (preAborted : Bool) (h : Tidy st) :
    Tidy (waitReg st e pid preAborted).state := by
  unfold waitReg
  cases preAborted with
  | true => simpa using h
  | false => simpa using tidy_onResolver e pid false h

theorem tidy_raceRegGo {pid : Nat} (names : List EventName) {st : EmState}
    (h : Tidy st) : Tidy (raceRegGo st pid names).2 := by
  induction names generalizing st with
  | nil => simpa [raceRegGo] using h
  | cons e rest ih =>
    unfold raceRegGo
    exact ih (tidy_onResolver e pid true h)

theorem tidy_racesChange {st : EmState} (r) (h : Tidy st) :
    Tidy { st with races := r } := h

theorem tidy_raceReg {st : EmState} (names : List EventName) (pid : Nat)
    (sig : Option Bool) (h : Tidy st) :
    Tidy (raceReg st names pid sig).state := by
  match names with
  | [n] =>
    unfold raceReg
    have h1 := tidy_waitReg n pid (decide (sig = some true)) h
    match hw : waitReg st n pid (decide (sig = some true)) with
    | ⟨none, st1⟩ =>
      rw [hw] at h1
      simpa [hw] using h1
    | ⟨some hh, st1⟩ =>
      rw [hw] at h1
      simpa [hw] using h1
  | [] =>
    unfold raceReg
    by_cases hb : sig = some true
    · simpa [hb] using h
    · simp only [hb, if_neg, if_false, not_false_iff]
      exact tidy_racesChange _ (tidy_raceRegGo [] h)
  | n1 :: n2 :: rest =>
    unfold raceReg
    by_cases hb : sig = some true
    · simpa [hb] using h
    · simp only [hb, if_neg, if_false, not_false_iff]
      exact tidy_racesChange _ (tidy_raceRegGo (n1 :: n2 :: rest) h)

theorem tidy_raceAbortFire {st : EmState} (pid : Nat)
    (names : List EventName) (h : Tidy st) :
    Tidy (raceAbortFire st pid names).1 := by
  unfold raceAbortFire
  exact tidy_foldl_offPairs _ h

theorem tidy_applyEffect {st : EmState} (env : Env) (lid : Nat) (d : Data)
    (h : Tidy st) : Tidy (applyEffect env lid d st).1 := by
  unfold applyEffect
  match env lid d with
  | .pure => exact h
  | .fail err => exact h
  | .subscribeOn e lid2 => exact tidy_onSingle e lid2 false h (by simp)
  | .unsub e w => exact tidy_offOne e w h

theorem tidy_runInner {st : EmState} (env : Env) (e : EventName)
    (w : Stored) (d : Data) (h : Tidy st) :
    Tidy (runInner env e w d st).1 := by
  unfold runInner
  match w.beh with
  | .plain lid => exact tidy_applyEffect env lid d h
  | .once lid => exact tidy_applyEffect env lid d (tidy_offOne e w h)
  | .resolveOnce pid => exact tidy_offOne e w h
  | .raceResolve pid => exact tidy_foldl_offPairs _ h

theorem tidy_dispatch : ∀ fuel : Nat,
    (∀ env e w d st out, Tidy st → invokeL fuel env e w d st = some out →
      Tidy out.1) ∧
    (∀ env e d st done tr fe out, Tidy st →
      dispatchGo fuel env e d st done tr fe = some out → Tidy out.1) ∧
    (∀ env e d st out, Tidy st → emitF fuel env e d st = some out →
      Tidy out.1) := by
  intro fuel
  induction fuel with
  | zero =>
    refine ⟨?_, ?_, ?_⟩
    · intro _ _ _ _ _ _ _ hstep
      simp [invokeL] at hstep
    · intro _ _ _ _ _ _ _ _ _ hstep
      simp [dispatchGo] at hstep
    · intro _ _ _ _ _ _ hstep
      simp [emitF] at hstep
  | succ n ih =>
    refine ⟨?_, ?_, ?_⟩
    · intro env e w d st out h hstep
      have hrun := tidy_runInner env e w d h
      simp only [invokeL] at hstep
      split at hstep
      · cases hstep
        exact hrun
      case h_2 err heq =>
        split at hstep
        · split at hstep
          · exact absurd hstep (by simp)
          case h_2 st2 tr2 err2 hm =>
            cases hstep
            exact ih.2.2 env _ err _ (st2, tr2, some err2) hrun hm
          case h_3 st2 tr2 hm =>
            have h2 : Tidy st2 := by
              have := ih.2.2 env _ err _ _ hrun hm
              simpa using this
            split at hstep
            · split at hstep
              · exact absurd hstep (by simp)
              case h_2 st3 tr3 r3 hm3 =>
                cases hstep
                exact ih.2.2 env _ err _ (st3, tr3, r3) h2 hm3
            · cases hstep
              exact h2
        · cases hstep
          exact hrun
    · intro env e d st done tr fe out h hstep
      simp only [dispatchGo] at hstep
      split at hstep
      · cases hstep
        exact h
      case h_2 w hfind =>
        split at hstep
        · exact absurd hstep (by simp)
        case h_2 st1 tr1 r1 hinv =>
          exact ih.2.1 env e d st1 _ _ _ out (ih.1 env e w d st _ h hinv) hstep
    · intro env e d st out h hstep
      simp only [emitF] at hstep
      split at hstep
      · cases hstep
        exact h
      · exact ih.2.1 env e d st _ _ _ out h hstep

theorem tidy_emitF {fuel : Nat} {env : Env} {e : EventName} {d : Data}
    {st : EmState} {out} (h : Tidy st)
    (hstep : emitF fuel env e d st = some out) : Tidy out.1 :=
  (tidy_dispatch fuel).2.2 env e d st out h hstep

/-! ### The public operations as a transition system (for the registry
invariant claim) -/

/-- One public operation on an `AsyncEventEmitter`, including the deferred
firing of the timeouts and abort signals attached by `on` / `once` /
`wait` / `race` (each such firing only runs the recorded `off` handles). -/
inductive Op where
  | oOn (e : EventName) (lid : Nat) (sig : Option Bool)
  | oOnce (e : EventName) (lid : Nat) (sig : Option Bool)
  | oOnConfig (cfg : List (EventName × Nat)) (sig : Option Bool)
  | oOff (e : EventName) (w : Stored)
  | oOffName (e : EventName)
  | oOffAll
  | oEmit (fuel : Nat) (e : EventName) (d : Data)
  | oWait (e : EventName) (pid : Nat) (preAborted : Bool)
  | oWaitFire (e : EventName) (w : Stored)
  | oThrowOnError (pid : Nat) (preAborted : Bool)
  | oRace (names : List EventName) (pid : Nat) (sig : Option Bool)
  | oRaceFire (pid : Nat) (names : List EventName)
deriving Repr

/-- The state reached after one operation (for an operation that throws,
the state at the moment of the throw; for an `emit` that runs out of fuel,
the starting state). -/
def step (env : Env) (st : EmState) : Op → EmState
  | .oOn e lid sig => (onSingle st e lid false sig).state
  | .oOnce e lid sig => (onSingle st e lid true sig).state
  | .oOnConfig cfg sig => (onMany st sig cfg).2
  | .oOff e w => offOne st e w
  | .oOffName e => offName st e
  | .oOffAll => offAll st
  | .oEmit fuel e d =>
    match emitF fuel env e d st with
    | some (st1, _, _) => st1
    | none => st
  | .oWait e pid pre => (waitReg st e pid pre).state
  | .oWaitFire e w => (waitAbortFire st e w).1
  | .oThrowOnError pid pre => (waitReg st errName pid pre).state
  | .oRace names pid sig => (raceReg st names pid sig).state
  | .oRaceFire pid names => (raceAbortFire st pid names).1

/-- A whole session: the constructor (`config && this.on(config)`) from the
pristine emitter, then a sequence of operations. -/
def runOps (env : Env) (cfg : List (EventName × Nat)) (cfgSig : Option Bool)
    (ops : List Op) : EmState :=
  ops.foldl (step env) (onMany emptyState cfgSig cfg).2

/-- An operation that registers a listener under an already-aborted
cancellation signal. -/
def abortedReg : Op → Prop
  | .oOn _ _ sig => sig = some true
  | .oOnce _ _ sig => sig = some true
  | .oOnConfig _ sig => sig = some true
  | _ => False

theorem tidy_step {env : Env} {st : EmState} {op : Op} (h : Tidy st)
    (hop : ¬ abortedReg op) : Tidy (step env st op) := by
  match op with
  | .oOn e lid sig =>
    exact tidy_onSingle e lid false h (by simpa [abortedReg] using hop)
  | .oOnce e lid sig =>
    exact tidy_onSingle e lid true h (by simpa [abortedReg] using hop)
  | .oOnConfig cfg sig =>
    exact tidy_onMany cfg h (by simpa [abortedReg] using hop)
  | .oOff e w => exact tidy_offOne e w h
  | .oOffName e => exact tidy_offName e h
  | .oOffAll => exact tidy_offAll h
  | .oEmit fuel e d =>
    show Tidy (match emitF fuel env e d st with
      | some (st1, _, _) => st1
      | none => st)
    match hm : emitF fuel env e d st with
    | some (st1, tr, r) => exact tidy_emitF h hm
    | none => exact h
  | .oWait e pid pre => exact tidy_waitReg e pid pre h
  | .oWaitFire e w => exact tidy_offOne e w h
  | .oThrowOnError pid pre => exact tidy_waitReg errName pid pre h
  | .oRace names pid sig => exact tidy_raceReg names pid sig h
  | .oRaceFire pid names => exact tidy_raceAbortFire pid names h

theorem tidy_runOps (env : Env) (cfg : List (EventName × Nat))
    (cfgSig : Option Bool) (ops : List Op) (hcfg : cfgSig ≠ some true)
    (hops : ∀ op ∈ ops, ¬ abortedReg op) :
    Tidy (runOps env cfg cfgSig ops) := by
  unfold runOps
  have h0 : Tidy (onMany emptyState cfgSig cfg).2 :=
    tidy_onMany cfg ⟨by simp [GoodKeys, emptyState], by simp [NoEmptySets, emptyState]⟩ hcfg
  generalize (onMany emptyState cfgSig cfg).2 = st at h0
  induction ops generalizing st with
  | nil => simpa using h0
  | cons op rest ih =>
    simp only [List.foldl_cons]
    exact ih (fun o ho => hops o (List.mem_cons_of_mem _ ho))
      _ (tidy_step h0 (hops op (List.mem_cons_self _ _)))


/-! ### One-step unfolding equations and small helpers -/

theorem emitF_succ (fuel : Nat) (env : Env) (e : EventName) (d : Data)
    (st : EmState) :
    emitF (fuel + 1) env e d st =
      if lookupLs e st.registry = [] then some (st, [], none)
      else dispatchGo fuel env e d st [] [] none := rfl

theorem invokeL_succ (fuel : Nat) (env : Env) (e : EventName) (w : Stored)
    (d : Data) (st : EmState) :
    invokeL (fuel + 1) env e w d st =
      match runInner env e w d st with
      | (st1, tr, r) =>
        match r with
        | none => some (st1, tr, none)
        | some err =>
          if w.errWrapped then
            match emitF fuel env EventName.monitor err st1 with
            | none => none
            | some (st2, tr2, some err2) => some (st2, tr ++ tr2, some err2)
            | some (st2, tr2, none) =>
              if lookupLs errName st2.registry ≠ [] then
                match emitF fuel env errName err st2 with
                | none => none
                | some (st3, tr3, r3) => some (st3, tr ++ tr2 ++ tr3, r3)
              else some (st2, tr ++ tr2, some err)
          else some (st1, tr, some err) := rfl

theorem emitF_noListeners {fuel : Nat} {env : Env} {e : EventName} {d : Data}
    {st : EmState} (h : lookupLs e st.registry = []) (hf : fuel ≥ 1) :
    emitF fuel env e d st = some (st, [], none) := by
  obtain ⟨f, rfl⟩ : ∃ f, fuel = f + 1 := ⟨fuel - 1, by omega⟩
  simp [emitF_succ, h]

theorem dispatchGo_succ (fuel : Nat) (env : Env) (e : EventName) (d : Data)
    (st : EmState) (done : List Stored) (tr : List Ev) (fe : Option Data) :
    dispatchGo (fuel + 1) env e d st done tr fe =
      match (lookupLs e st.registry).find? (fun w => decide (w ∉ done)) with
      | none => some (st, tr, fe)
      | some w =>
        match invokeL fuel env e w d st with
        | none => none
        | some (st1, tr1, r1) =>
          dispatchGo fuel env e d st1 (done ++ [w]) (tr ++ tr1) (fe <|> r1) :=
  rfl

/-- Dispatch finishes once every current member has been visited. -/
theorem dispatchGo_done {env : Env} {e : EventName} {d : Data} {st : EmState}
    (L : List Stored) (hL : lookupLs e st.registry = L)
    (done : List Stored) (hsub : ∀ x ∈ L, x ∈ done) {fuel : Nat}
    (hf : fuel ≥ 1) (tr : List Ev) (fe : Option Data) :
    dispatchGo fuel env e d st done tr fe = some (st, tr, fe) := by
  obtain ⟨f, rfl⟩ : ∃ f, fuel = f + 1 := ⟨fuel - 1, by omega⟩
  have hfind : (lookupLs e st.registry).find?
      (fun w => decide (w ∉ done)) = none := by
    rw [hL]
    exact List.find?_eq_none.mpr (fun x hx => by simp [hsub x hx])
  rw [dispatchGo_succ, hfind]

section MoreKeyLemmas

variable {κ β : Type} [DecidableEq κ]

theorem keyFind?_append_self {k : κ} {m : List (κ × β)} (v : β)
    (h : hasKey k m = false) : keyFind? k (m ++ [(k, v)]) = some v := by
  induction m with
  | nil => simp [keyFind?]
  | cons p rest ih =>
    by_cases h2 : k = p.1
    · simp [hasKey, h2] at h
    · simp [hasKey, h2] at h
      simp [keyFind?, h2, ih h]

theorem keyFind?_append_ne {k k2 : κ} {m : List (κ × β)} (v : β)
    (h : k2 ≠ k) : keyFind? k2 (m ++ [(k, v)]) = keyFind? k2 m := by
  induction m with
  | nil => simp [keyFind?, h]
  | cons p rest ih =>
    by_cases h2 : k2 = p.1 <;> simp [keyFind?, h2, ih]

theorem hasKey_keySet_self (k : κ) (v : β) (m : List (κ × β)) :
    hasKey k (keySet k v m) = true :=
  keyFind?_some_hasKey (keyFind?_keySet_self k v m)

theorem keyFind?_mem {k : κ} {m : List (κ × β)} {v : β}
    (h : keyFind? k m = some v) : (k, v) ∈ m := by
  induction m with
  | nil => simp [keyFind?] at h
  | cons p rest ih =>
    obtain ⟨a, b⟩ := p
    by_cases h2 : k = a
    · rw [show keyFind? k ((a, b) :: rest) = some b from by simp [keyFind?, h2]] at h
      injection h with hbv
      subst hbv
      subst h2
      exact List.mem_cons_self _ _
    · simp [keyFind?, h2] at h
      exact List.mem_cons_of_mem _ (ih h)

/-- Values reached through `keySet` are the new value or old entries
(no distinctness needed). -/
theorem mem_keySet_weak {p : κ × β} {k : κ} {v : β} {m : List (κ × β)}
    (h : p ∈ keySet k v m) : p.2 = v ∨ p ∈ m := by
  induction m with
  | nil =>
    simp [keySet] at h
    simp [h]
  | cons q rest ih =>
    by_cases h2 : k = q.1
    · simp [keySet, h2] at h
      rcases h with h | h
      · simp [h]
      · exact Or.inr (List.mem_cons_of_mem _ h)
    · simp [keySet, h2] at h
      rcases h with h | h
      · exact Or.inr (by simp [h])
      · rcases ih h with h3 | h3
        · exact Or.inl h3
        · exact Or.inr (List.mem_cons_of_mem _ h3)

end MoreKeyLemmas

theorem lookupLs_ensureKey_self (st : EmState) (e : EventName)
    (h0 : lookupLs e st.registry = []) :
    lookupLs e (ensureKey st e).registry = [] := by
  unfold ensureKey
  split
  · exact h0
  case isFalse h1 =>
    show lookupLs e (st.registry ++ [(e, [])]) = []
    unfold lookupLs
    rw [keyFind?_append_self [] (Bool.not_eq_true _ ▸ h1 : hasKey e st.registry = false)]
    rfl


/-! ### Dispatch over listeners that do not mutate the registry -/

/-- A stored listener whose invocation with payload `d` succeeds without
touching the emitter: a plain wrapper of a raw listener whose effect on
this payload is to do nothing. -/
def purePlain (env : Env) (d : Data) (w : Stored) : Prop :=
  ∃ l, w.beh = .plain l ∧ env l d = .pure

/-- The raw listener id behind a stored listener (the promise id for the
resolver behaviours). -/
def lidOf : Behavior → Nat
  | .plain l => l
  | .once l => l
  | .resolveOnce p => p
  | .raceResolve p => p

theorem invokeL_purePlain {env : Env} {d : Data} {w : Stored} (fuel : Nat)
    (e : EventName) (st : EmState) (h : purePlain env d w) :
    invokeL (fuel + 1) env e w d st =
      some (st, [.call (lidOf w.beh) d], none) := by
  obtain ⟨l, hb, he⟩ := h
  simp [invokeL, runInner, hb, applyEffect, he, lidOf]

theorem find?_congrP {α : Type} (l : List α) (p q : α → Bool)
    (h : ∀ x ∈ l, p x = q x) : l.find? p = l.find? q := by
  induction l with
  | nil => rfl
  | cons a rest ih =>
    simp only [List.find?, h a (List.mem_cons_self a rest)]
    cases hqa : q a with
    | true => rfl
    | false => exact ih (fun x hx => h x (List.mem_cons_of_mem _ hx))

theorem find?_notMem_take {L : List Stored} (hnd : L.Nodup) (k : Nat) :
    L.find? (fun w => decide (w ∉ L.take k)) = L[k]? := by
  induction L generalizing k with
  | nil => simp
  | cons a rest ih =>
    match k with
    | 0 =>
      rw [List.find?_cons_of_pos _ (by simp)]
      simp
    | k + 1 =>
      simp only [List.take_succ_cons]
      rw [List.find?_cons_of_neg _ (by simp)]
      rw [find?_congrP rest
        (fun w => decide (w ∉ a :: rest.take k))
        (fun w => decide (w ∉ rest.take k))
        (fun x hx => by
          have hxa : x ≠ a := fun hh =>
            (List.nodup_cons.mp hnd).1 (hh ▸ hx)
          simp [hxa])]
      rw [List.getElem?_cons_succ]
      exact ih (List.nodup_cons.mp hnd).2 k

theorem dispatchGo_flat {env : Env} {e : EventName} {d : Data} {st : EmState}
    (L : List Stored) (hL : lookupLs e st.registry = L) (hnd : L.Nodup)
    (hall : ∀ w ∈ L, purePlain env d w) :
    ∀ fuel k tr fe, k ≤ L.length → fuel ≥ (L.length - k) + 1 →
      dispatchGo fuel env e d st (L.take k) tr fe =
        some (st, tr ++ (L.drop k).map (fun w => Ev.call (lidOf w.beh) d), fe) := by
  intro fuel
  induction fuel with
  | zero =>
    intro k tr fe hk hfuel
    omega
  | succ f ihf =>
    intro k tr fe hk hfuel
    by_cases hkn : k = L.length
    · subst hkn
      simp only [dispatchGo, hL, List.take_length, List.drop_length,
        List.map_nil, List.append_nil]
      rw [List.find?_eq_none.mpr (fun w hw => by simp [hw])]
    · have hk2 : k < L.length := lt_of_le_of_ne hk hkn
      obtain ⟨m, rfl⟩ : ∃ m, f = m + 1 := ⟨f - 1, by omega⟩
      have hfind : (lookupLs e st.registry).find?
          (fun w => decide (w ∉ L.take k)) = some L[k] := by
        rw [hL, find?_notMem_take hnd k, List.getElem?_eq_getElem hk2]
      have hinv := invokeL_purePlain m e st (hall _ (List.getElem_mem hk2))
      rw [dispatchGo_succ, hfind]
      dsimp only
      rw [hinv]
      dsimp only
      rw [Option.orElse_none]
      have hdone : L.take k ++ [L[k]] = L.take (k + 1) := by
        rw [List.take_succ, List.getElem?_eq_getElem hk2]
        rfl
      rw [hdone]
      rw [ihf (k + 1) (tr ++ [Ev.call (lidOf L[k].beh) d]) fe
        (by omega) (by omega)]
      have hdrop : L.drop k = L[k] :: L.drop (k + 1) :=
        List.drop_eq_getElem_cons hk2
      rw [hdrop, List.map_cons, List.append_assoc]
      rfl

theorem emitF_flat {env : Env} {e : EventName} {d : Data} {st : EmState}
    (L : List Stored) (hL : lookupLs e st.registry = L) (hnd : L.Nodup)
    (hall : ∀ w ∈ L, purePlain env d w) (fuel : Nat)
    (hfuel : fuel ≥ L.length + 2) :
    emitF fuel env e d st =
      some (st, L.map (fun w => Ev.call (lidOf w.beh) d), none) := by
  obtain ⟨f, rfl⟩ : ∃ f, fuel = f + 1 := ⟨fuel - 1, by omega⟩
  simp only [emitF]
  by_cases h0 : L = []
  · subst h0
    simp [hL]
  · rw [if_neg (by rw [hL]; exact h0)]
    have := dispatchGo_flat L hL hnd hall f 0 [] none (by omega) (by omega)
    simpa using this

/-! ### Dispatch over raw listeners that may fail but do not mutate -/

/-- The failure a stored plain listener produces when invoked with `dd`
(`none` when it settles successfully or is not a plain listener). -/
def storedFailure (env : Env) (dd : Data) (w : Stored) : Option Data :=
  match w.beh with
  | .plain l =>
    match env l dd with
    | .fail er => some er
    | _ => none
  | _ => none

/-- A raw (unwrapped) plain listener whose effect on `dd` is to settle —
successfully or with a rejection — without touching the emitter.  This is
the shape of every listener the source stores on the `"error"` and
`errorMonitor` channels, as long as it does not subscribe or unsubscribe
during the dispatch. -/
def rawInert (env : Env) (dd : Data) (w : Stored) : Prop :=
  w.errWrapped = false ∧
    ∃ l, w.beh = .plain l ∧ (env l dd = .pure ∨ ∃ er, env l dd = .fail er)

/-- The aggregate failure of dispatching a listener list: the first
rejection in invocation order (`Promise.all`). -/
def chanFailure (env : Env) (dd : Data) (ws : List Stored) : Option Data :=
  ws.foldl (fun a w => a <|> storedFailure env dd w) none

theorem invokeL_rawInert {env : Env} {dd : Data} {w : Stored} (fuel : Nat)
    (e : EventName) (st : EmState) (h : rawInert env dd w) :
    invokeL (fuel + 1) env e w dd st =
      some (st, [.call (lidOf w.beh) dd], storedFailure env dd w) := by
  obtain ⟨hew, l, hb, hc⟩ := h
  rcases hc with hc | ⟨er, hc⟩
  · simp [invokeL, runInner, hb, applyEffect, hc, lidOf, storedFailure]
  · simp [invokeL, runInner, hb, applyEffect, hc, lidOf, storedFailure, hew]

theorem dispatchGo_flatInert {env : Env} {e : EventName} {d : Data}
    {st : EmState} (L : List Stored) (hL : lookupLs e st.registry = L)
    (hnd : L.Nodup) (hall : ∀ w ∈ L, rawInert env d w) :
    ∀ fuel k tr fe, k ≤ L.length → fuel ≥ (L.length - k) + 1 →
      dispatchGo fuel env e d st (L.take k) tr fe =
        some (st, tr ++ (L.drop k).map (fun w => Ev.call (lidOf w.beh) d),
          (L.drop k).foldl (fun a w => a <|> storedFailure env d w) fe) := by
  intro fuel
  induction fuel with
  | zero =>
    intro k tr fe hk hfuel
    omega
  | succ f ihf =>
    intro k tr fe hk hfuel
    by_cases hkn : k = L.length
    · subst hkn
      simp only [dispatchGo, hL, List.take_length, List.drop_length,
        List.map_nil, List.append_nil, List.foldl_nil]
      rw [List.find?_eq_none.mpr (fun w hw => by simp [hw])]
    · have hk2 : k < L.length := lt_of_le_of_ne hk hkn
      obtain ⟨m, rfl⟩ : ∃ m, f = m + 1 := ⟨f - 1, by omega⟩
      have hfind : (lookupLs e st.registry).find?
          (fun w => decide (w ∉ L.take k)) = some L[k] := by
        rw [hL, find?_notMem_take hnd k, List.getElem?_eq_getElem hk2]
      have hinv := invokeL_rawInert m e st (hall _ (List.getElem_mem hk2))
      rw [dispatchGo_succ, hfind]
      dsimp only
      rw [hinv]
      dsimp only
      have hdone : L.take k ++ [L[k]] = L.take (k + 1) := by
        rw [List.take_succ, List.getElem?_eq_getElem hk2]
        rfl
      rw [hdone]
      rw [ihf (k + 1) (tr ++ [Ev.call (lidOf L[k].beh) d])
        (fe <|> storedFailure env d L[k]) (by omega) (by omega)]
      have hdrop : L.drop k = L[k] :: L.drop (k + 1) :=
        List.drop_eq_getElem_cons hk2
      rw [hdrop, List.map_cons, List.append_assoc, List.foldl_cons]
      rfl

theorem emitF_flatInert {env : Env} {e : EventName} {d : Data}
    {st : EmState} (L : List Stored) (hL : lookupLs e st.registry = L)
    (hnd : L.Nodup) (hall : ∀ w ∈ L, rawInert env d w) (fuel : Nat)
    (hfuel : fuel ≥ L.length + 2) :
    emitF fuel env e d st =
      some (st, L.map (fun w => Ev.call (lidOf w.beh) d),
        chanFailure env d L) := by
  obtain ⟨f, rfl⟩ : ∃ f, fuel = f + 1 := ⟨fuel - 1, by omega⟩
  simp only [emitF]
  by_cases h0 : L = []
  · subst h0
    simp [hL, chanFailure]
  · rw [if_neg (by rw [hL]; exact h0)]
    have := dispatchGo_flatInert L hL hnd hall f 0 [] none (by omega) (by omega)
    simpa [chanFailure] using this


/-! ### Promises that no dispatch can resolve -/

/-- Whether a stored listener is a resolver of the pending promise `pid`. -/
def isResolver (pid : Nat) (w : Stored) : Prop :=
  w.beh = .resolveOnce pid ∨ w.beh = .raceResolve pid

instance (pid : Nat) : DecidablePred (isResolver pid) := fun _ =>
  inferInstanceAs (Decidable (_ ∨ _))

/-- No resolver of the pending promise `pid` is registered anywhere. -/
def PidFree (pid : Nat) (st : EmState) : Prop :=
  ∀ p ∈ st.registry, ∀ w ∈ p.2, ¬ isResolver pid w

theorem pidFree_lookup {pid : Nat} {st : EmState} {e : EventName} {w : Stored}
    (h : PidFree pid st) (hw : w ∈ lookupLs e st.registry) :
    ¬ isResolver pid w := by
  unfold lookupLs at hw
  match hk : keyFind? e st.registry with
  | none =>
    rw [hk] at hw
    simp at hw
  | some ls =>
    rw [hk] at hw
    exact h (e, ls) (keyFind?_mem hk) w hw

theorem pidFree_offOne {pid : Nat} {st : EmState} (e : EventName) (w : Stored)
    (h : PidFree pid st) : PidFree pid (offOne st e w) := by
  simp only [offOne]
  split
  · split
    · split
      · intro p hp
        exact h p (mem_keyDel hp)
      · intro p hp w2 hw2
        rcases mem_keySet_weak hp with h4 | h4
        · rw [h4] at hw2
          exact pidFree_lookup h (List.mem_of_mem_erase hw2)
        · exact h p h4 w2 hw2
    · exact h
  · exact h

theorem pidFree_foldl_offPairs {pid : Nat} (hs : List (EventName × Stored))
    {st : EmState} (h : PidFree pid st) :
    PidFree pid (hs.foldl (fun acc p => offOne acc p.1 p.2) st) := by
  induction hs generalizing st with
  | nil => simpa using h
  | cons p rest ih => exact ih (pidFree_offOne p.1 p.2 h)

theorem mem_lookupLs_ensureKey {st : EmState} {e f : EventName} {w : Stored}
    (hw : w ∈ lookupLs f (ensureKey st e).registry) :
    w ∈ lookupLs f st.registry := by
  unfold ensureKey at hw
  split at hw
  · exact hw
  case isFalse h1 =>
    by_cases h2 : f = e
    · subst h2
      unfold lookupLs at hw
      rw [keyFind?_append_self []
        (Bool.not_eq_true _ ▸ h1 : hasKey f st.registry = false)] at hw
      simp at hw
    · unfold lookupLs at hw
      rw [keyFind?_append_ne [] h2] at hw
      exact hw

theorem pidFree_ensureKey {pid : Nat} {st : EmState} (e : EventName)
    (h : PidFree pid st) : PidFree pid (ensureKey st e) := by
  intro p hp w2 hw2
  rcases registry_ensureKey hp with h1 | h1
  · exact h p h1 w2 hw2
  · rw [h1] at hw2
    simp at hw2

theorem pidFree_congr {pid : Nat} {stA stB : EmState}
    (hr : stB.registry = stA.registry) (h : PidFree pid stA) :
    PidFree pid stB := by
  intro p hp
  rw [hr] at hp
  exact h p hp

theorem pidFree_onSingle {pid : Nat} {st : EmState} (e : EventName)
    (lid : Nat) (sig : Option Bool) (h : PidFree pid st) :
    PidFree pid (onSingle st e lid false sig).state := by
  have hres : ¬ isResolver pid (mkStored (ensureKey st e) e lid false).1 := by
    unfold mkStored isResolver
    by_cases hc : isErrChannel e <;> simp [hc]
  have hens := pidFree_ensureKey e h
  simp only [onSingle]
  rcases hmk : mkStored (ensureKey st e) e lid false with ⟨w0, st2⟩
  rw [hmk] at hres
  have hreg : st2.registry = (ensureKey st e).registry := by
    have h2 := registry_mkStored (ensureKey st e) e lid false
    rw [hmk] at h2
    exact h2
  have hadd : PidFree pid (addStored st2 e w0) := by
    intro p hp w2 hw2
    simp only [addStored] at hp
    rw [hreg] at hp
    rcases mem_keySet_weak hp with h4 | h4
    · rw [h4] at hw2
      unfold setAdd at hw2
      split at hw2
      · exact pidFree_lookup hens hw2
      · rcases List.mem_append.mp hw2 with h5 | h5
        · exact pidFree_lookup hens h5
        · simp at h5
          rw [h5]
          exact hres
    · exact hens p h4 w2 hw2
  match sig with
  | some true => exact pidFree_congr hreg hens
  | some false => exact hadd
  | none => exact hadd

theorem pidFree_applyEffect {pid : Nat} {st : EmState} (env : Env)
    (lid : Nat) (d : Data) (h : PidFree pid st) :
    PidFree pid (applyEffect env lid d st).1 := by
  unfold applyEffect
  match env lid d with
  | .pure => exact h
  | .fail err => exact h
  | .subscribeOn e lid2 => exact pidFree_onSingle e lid2 none h
  | .unsub e w => exact pidFree_offOne e w h

theorem pidFree_runInner {pid : Nat} {st : EmState} (env : Env)
    (e : EventName) (w : Stored) (d : Data) (h : PidFree pid st)
    (hw : ¬ isResolver pid w) :
    PidFree pid (runInner env e w d st).1 ∧
      ∀ dd, Ev.resolve pid dd ∉ (runInner env e w d st).2.1 := by
  unfold runInner
  match hb : w.beh with
  | .plain lid =>
    exact ⟨pidFree_applyEffect env lid d h, by simp⟩
  | .once lid =>
    exact ⟨pidFree_applyEffect env lid d (pidFree_offOne e w h), by simp⟩
  | .resolveOnce pid2 =>
    have hne : pid2 ≠ pid := fun hh => hw (Or.inl (by rw [hb, hh]))
    exact ⟨pidFree_offOne e w h, by simp [Ne.symm hne]⟩
  | .raceResolve pid2 =>
    have hne : pid2 ≠ pid := fun hh => hw (Or.inr (by rw [hb, hh]))
    exact ⟨pidFree_foldl_offPairs _ h, by simp [Ne.symm hne]⟩

theorem pidFree_dispatch (pid : Nat) : ∀ fuel : Nat,
    (∀ env e w d st out, PidFree pid st → ¬ isResolver pid w →
      invokeL fuel env e w d st = some out →
      PidFree pid out.1 ∧ ∀ dd, Ev.resolve pid dd ∉ out.2.1) ∧
    (∀ env e d st done tr fe out, PidFree pid st →
      dispatchGo fuel env e d st done tr fe = some out →
      PidFree pid out.1 ∧
        ∀ dd, Ev.resolve pid dd ∈ out.2.1 → Ev.resolve pid dd ∈ tr) ∧
    (∀ env e d st out, PidFree pid st → emitF fuel env e d st = some out →
      PidFree pid out.1 ∧ ∀ dd, Ev.resolve pid dd ∉ out.2.1) := by
  intro fuel
  induction fuel with
  | zero =>
    refine ⟨?_, ?_, ?_⟩
    · intro _ _ _ _ _ _ _ _ hstep
      simp [invokeL] at hstep
    · intro _ _ _ _ _ _ _ _ _ hstep
      simp [dispatchGo] at hstep
    · intro _ _ _ _ _ _ hstep
      simp [emitF] at hstep
  | succ n ih =>
    refine ⟨?_, ?_, ?_⟩
    · intro env e w d st out h hw hstep
      have hrun := pidFree_runInner env e w d h hw
      simp only [invokeL] at hstep
      split at hstep
      · cases hstep
        exact hrun
      case h_2 err heq =>
        split at hstep
        · split at hstep
          · exact absurd hstep (by simp)
          case h_2 st2 tr2 err2 hm =>
            cases hstep
            have h2 := ih.2.2 env _ err _ (st2, tr2, some err2) hrun.1 hm
            refine ⟨h2.1, ?_⟩
            intro dd hdd
            rcases List.mem_append.mp hdd with h3 | h3
            · exact hrun.2 dd h3
            · exact h2.2 dd h3
          case h_3 st2 tr2 hm =>
            have h2 := ih.2.2 env _ err _ (st2, tr2, none) hrun.1 hm
            split at hstep
            · split at hstep
              · exact absurd hstep (by simp)
              case h_2 st3 tr3 r3 hm3 =>
                cases hstep
                have h3 := ih.2.2 env _ err _ (st3, tr3, r3) h2.1 hm3
                refine ⟨h3.1, ?_⟩
                intro dd hdd
                rcases List.mem_append.mp hdd with h4 | h4
                · rcases List.mem_append.mp h4 with h5 | h5
                  · exact hrun.2 dd h5
                  · exact h2.2 dd h5
                · exact h3.2 dd h4
            · cases hstep
              refine ⟨h2.1, ?_⟩
              intro dd hdd
              rcases List.mem_append.mp hdd with h4 | h4
              · exact hrun.2 dd h4
              · exact h2.2 dd h4
        · cases hstep
          exact hrun
    · intro env e d st done tr fe out h hstep
      simp only [dispatchGo] at hstep
      split at hstep
      · cases hstep
        exact ⟨h, fun dd hdd => hdd⟩
      case h_2 w hfind =>
        have hwmem : w ∈ lookupLs e st.registry :=
          List.mem_of_find?_eq_some hfind
        have hw : ¬ isResolver pid w := pidFree_lookup h hwmem
        split at hstep
        · exact absurd hstep (by simp)
        case h_2 st1 tr1 r1 hinv =>
          have h1 := ih.1 env e w d st (st1, tr1, r1) h hw hinv
          have h2 := ih.2.1 env e d st1 _ _ _ out h1.1 hstep
          refine ⟨h2.1, ?_⟩
          intro dd hdd
          have h3 := h2.2 dd hdd
          rcases List.mem_append.mp h3 with h4 | h4
          · exact h4
          · exact absurd h4 (h1.2 dd)
    · intro env e d st out h hstep
      simp only [emitF] at hstep
      split at hstep
      · cases hstep
        exact ⟨h, by simp⟩
      · have h1 := ih.2.1 env e d st [] [] none out h hstep
        refine ⟨h1.1, ?_⟩
        intro dd hdd
        have := h1.2 dd hdd
        simp at this

theorem pidFree_emitF {pid fuel : Nat} {env : Env} {e : EventName} {d : Data}
    {st : EmState} {out} (h : PidFree pid st)
    (hstep : emitF fuel env e d st = some out) :
    PidFree pid out.1 ∧ ∀ dd, Ev.resolve pid dd ∉ out.2.1 :=
  (pidFree_dispatch pid fuel).2.2 env e d st out h hstep

theorem pidFree_emitMany {pid : Nat} {env : Env}
    (xs : List (Nat × EventName × Data)) {st : EmState} {out}
    (h : PidFree pid st) (hstep : emitMany env xs st = some out) :
    ∀ dd, Ev.resolve pid dd ∉ out.2 := by
  induction xs generalizing st out with
  | nil =>
    cases hstep
    simp
  | cons x rest ih =>
    simp only [emitMany] at hstep
    split at hstep
    · exact absurd hstep (by simp)
    case h_2 st1 tr r hm =>
      split at hstep
      · exact absurd hstep (by simp)
      case h_2 st2 tr2 hm2 =>
        cases hstep
        intro dd hdd
        rcases List.mem_append.mp hdd with h3 | h3
        · exact (pidFree_emitF h hm).2 dd h3
        · exact ih (pidFree_emitF h hm).1 hm2 dd h3


/-! ### Legacy emitter lemmas -/

theorem serialGo_allOk (lenv : LEnv) (d : Data) (ls : List Nat)
    (h : ∀ l ∈ ls, lenv l d = none) :
    serialGo lenv d ls = (ls.map (fun l => Ev.call l d), none) := by
  induction ls with
  | nil => rfl
  | cons l rest ih =>
    simp only [serialGo, h l (List.mem_cons_self l rest)]
    rw [ih (fun x hx => h x (List.mem_cons_of_mem _ hx))]
    rfl

theorem serialGo_firstFail (lenv : LEnv) (d : Data) (pre : List Nat)
    (lf : Nat) (post : List Nat) (err : Data)
    (hpre : ∀ l ∈ pre, lenv l d = none) (hf : lenv lf d = some err) :
    serialGo lenv d (pre ++ lf :: post) =
      (pre.map (fun l => Ev.call l d) ++ [Ev.call lf d], some err) := by
  induction pre with
  | nil => simp [serialGo, hf]
  | cons l rest ih =>
    have h2 := ih (fun x hx => hpre x (List.mem_cons_of_mem _ hx))
    simp only [List.cons_append, serialGo,
      hpre l (List.mem_cons_self l rest), List.append_eq, h2, List.map_cons]

theorem legacyGet_fold (e : EventName) (lids : List Nat) (st : LegacyState)
    (hnd : lids.Nodup) (hdisj : ∀ l ∈ lids, l ∉ legacyGet st e) :
    legacyGet (lids.foldl (fun a l => legacyOn a e l) st) e =
      legacyGet st e ++ lids := by
  induction lids generalizing st with
  | nil => simp
  | cons l rest ih =>
    simp only [List.foldl_cons]
    have hst1 : legacyGet (legacyOn st e l) e = legacyGet st e ++ [l] := by
      show legacyGet
        ⟨keySet e (if l ∈ legacyGet st e then legacyGet st e
          else legacyGet st e ++ [l]) st.table⟩ e = legacyGet st e ++ [l]
      rw [if_neg (hdisj l (List.mem_cons_self l rest))]
      unfold legacyGet
      rw [keyFind?_keySet_self]
      rfl
    rw [ih (legacyOn st e l) (List.nodup_cons.mp hnd).2 ?_, hst1]
    · simp
    · intro l2 hl2
      rw [hst1]
      intro hmem
      rcases List.mem_append.mp hmem with h3 | h3
      · exact hdisj l2 (List.mem_cons_of_mem _ hl2) h3
      · simp at h3
        subst h3
        exact (List.nodup_cons.mp hnd).1 hl2

theorem emitMany_nilRegistry (env : Env) (e : EventName) (ds : List Data)
    (st : EmState) (h : st.registry = []) :
    emitMany env (ds.map (fun d2 => (4, e, d2))) st = some (st, []) := by
  induction ds with
  | nil => rfl
  | cons d2 rest ih =>
    simp only [List.map_cons, emitMany]
    rw [emitF_noListeners (by simp [lookupLs, h, keyFind?]) (by omega)]
    dsimp only
    rw [ih]
    rfl


/-! ### Removing a freshly registered single listener restores the registry -/

theorem offOne_fresh (st0 st : EmState) (e : EventName) (w : Stored)
    (hK : GoodKeys st0) (h0 : lookupLs e st0.registry = [])
    (hreg : st.registry = keySet e [w] (ensureKey st0 e).registry) :
    (∀ f, lookupLs f (offOne st e w).registry = lookupLs f st0.registry) ∧
    e ∉ (offOne st e w).registry.map Prod.fst ∧
    offOne (offOne st e w) e w = offOne st e w := by
  have hgood : GoodKeys (ensureKey st0 e) := goodKeys_ensureKey e hK
  have hkeys : (st.registry.map Prod.fst).Nodup := by
    rw [hreg, keys_keySet_hasKey _ (hasKey_ensureKey st0 e)]
    exact hgood
  have h1 : hasKey e st.registry = true := by
    rw [hreg]
    exact hasKey_keySet_self e [w] _
  have h2 : lookupLs e st.registry = [w] := by
    unfold lookupLs
    rw [hreg, keyFind?_keySet_self]
    rfl
  have hoff : offOne st e w = { st with registry := keyDel e st.registry } := by
    simp [offOne, h1, h2]
  have hnk : hasKey e (keyDel e st.registry) = false := hasKey_keyDel_self hkeys
  refine ⟨?_, ?_, ?_⟩
  · intro f
    rw [hoff]
    by_cases hf : f = e
    · subst hf
      show lookupLs f (keyDel f st.registry) = lookupLs f st0.registry
      unfold lookupLs at h0 ⊢
      rw [hasKey_false_keyFind? hnk, h0]
      rfl
    · show lookupLs f (keyDel e st.registry) = lookupLs f st0.registry
      unfold lookupLs
      rw [keyFind?_keyDel_ne _ hf, hreg, keyFind?_keySet_ne _ _ hf]
      unfold ensureKey
      split
      · rfl
      · show (keyFind? f (st0.registry ++ [(e, [])])).getD [] = _
        rw [keyFind?_append_ne _ hf]
  · rw [hoff]
    intro hmem
    exact absurd (hasKey_eq_mem_keys.mpr hmem) (by simp [hnk])
  · rw [hoff]
    show offOne { st with registry := keyDel e st.registry } e w = _
    unfold offOne
    simp [hnk]


/-! ### Claim theorems -/

/-- The everywhere-succeeding listener environment. -/
def envPure : Env := fun _ _ => .pure

/-- An emitter with one listener on "myEventName" and none on "error"
(the first emitter of the repository test `handle errors properly`). -/
def stNoErrorListener : EmState :=
  ⟨[(.str "myEventName", [⟨.tok 0, true, .plain 0⟩])], [], 1⟩

/-- Claim C1: the claim states that `emit("error", eventData)` with zero
listeners on `"error"` rejects with `eventData` itself.  The `emit` of the
source has no such branch: with no `"error"` listeners the lookup misses,
nothing is invoked, and the call resolves successfully.  This theorem
evaluates the embedded `emit` at the failing input (`emit("error", 42)` on
an emitter with one listener on `"myEventName"` and none on `"error"`):
the result resolves (`none` failure) with an empty invocation trace and an
unchanged registry, where the claim — and the repository test suite, which
asserts that emitting on the error channel rejects there — requires rejection with the
payload. -/
theorem c1_emit_error_unobserved_resolves :
    emitF 5 envPure errName 42 stNoErrorListener =
      some (stNoErrorListener, [], none) := by
  decide

/-- Claim C2 counterexample: calling `on("pre", L, alreadyAbortedSignal)`
on a fresh emitter throws from `signal.throwIfAborted()` after the map
entry was created but before the listener was added, leaving `"pre"`
mapped to an empty listener collection: the registry violates the claimed
invariant, `eventNames()` contains `"pre"` while its listener count is 0. -/
theorem c2_counterexample :
    (runOps envPure [] none [.oOn (.str "pre") 0 (some true)]).registry
        = [(.str "pre", [])] ∧
      ¬ NoEmptySets (runOps envPure [] none [.oOn (.str "pre") 0 (some true)]) ∧
      eventNames (runOps envPure [] none [.oOn (.str "pre") 0 (some true)])
        = [.str "pre"] ∧
      eventListenerCount (runOps envPure [] none
        [.oOn (.str "pre") 0 (some true)]) (.str "pre") = 0 := by
  decide

/-- Claim C2 (amended): across every session — constructor with config,
`on`, `once`, bulk `on`, `off` in all modes, `emit`, `wait`,
`throwOnError`, `race`, and the firing of attached timeouts and abort
signals — the registry never maps an identifier to an empty listener
collection, provided no `on` / `once` / bulk-`on` registration (including
the constructor config) is performed with an already-aborted cancellation
signal; such a registration throws after lazily creating the map entry and
leaves an empty collection behind (see the counterexample). -/
theorem c2_amended (env : Env) (cfg : List (EventName × Nat))
    (cfgSig : Option Bool) (ops : List Op)
    (hcfg : cfgSig ≠ some true) (hops : ∀ op ∈ ops, ¬ abortedReg op) :
    NoEmptySets (runOps env cfg cfgSig ops) :=
  (tidy_runOps env cfg cfgSig ops hcfg hops).2


instance : DecidablePred abortedReg := fun op =>
  match op with
  | .oOn _ _ sig => inferInstanceAs (Decidable (sig = some true))
  | .oOnce _ _ sig => inferInstanceAs (Decidable (sig = some true))
  | .oOnConfig _ sig => inferInstanceAs (Decidable (sig = some true))
  | .oOff _ _ => inferInstanceAs (Decidable False)
  | .oOffName _ => inferInstanceAs (Decidable False)
  | .oOffAll => inferInstanceAs (Decidable False)
  | .oEmit _ _ _ => inferInstanceAs (Decidable False)
  | .oWait _ _ _ => inferInstanceAs (Decidable False)
  | .oWaitFire _ _ => inferInstanceAs (Decidable False)
  | .oThrowOnError _ _ => inferInstanceAs (Decidable False)
  | .oRace _ _ _ => inferInstanceAs (Decidable False)
  | .oRaceFire _ _ => inferInstanceAs (Decidable False)

theorem c2_amended_witness :
    (none : Option Bool) ≠ some true ∧
      NoEmptySets (runOps envPure [(.str "pre", 0)] none
        [.oOnce (.str "post") 1 none, .oEmit 4 (.str "pre") 7,
         .oOffName (.str "pre")]) :=
  ⟨by decide,
   c2_amended envPure [(.str "pre", 0)] none
     [.oOnce (.str "post") 1 none, .oEmit 4 (.str "pre") 7,
      .oOffName (.str "pre")] (by decide) (by decide)⟩

/-- The state of the C3 counterexample: a failing listener wrapped on
"x", a failing raw listener on the `errorMonitor` channel, and a raw
listener registered on "error". -/
def stMonitorFails : EmState :=
  ⟨[(.str "x", [⟨.tok 0, true, .plain 0⟩]),
    (.monitor, [⟨.rawRef 1, false, .plain 1⟩]),
    (errName, [⟨.rawRef 2, false, .plain 2⟩])], [], 1⟩

/-- Listener 0 rejects with 7, the monitor listener 1 rejects with 9,
the error listener 2 succeeds. -/
def envMonitorFails : Env := fun l _ =>
  if l = 0 then .fail 7 else if l = 1 then .fail 9 else .pure

/-- Claim C3 counterexample: one listener is registered on `"error"`
(count 1), the listener on "x" fails with 7, so the claim requires the
failure to be redelivered through `emit("error", 7)` and the wrapped
invocation to resolve.  Instead the failing `errorMonitor` listener makes
`await this.emit(errorMonitor, error)` reject first: `emit("x", 5)`
rejects with the monitor failure 9, and the `"error"` listener (id 2) is
never invoked — the trace stops after the monitor delivery. -/
theorem c3_counterexample :
    eventListenerCount stMonitorFails errName = 1 ∧
      emitF 20 envMonitorFails (.str "x") 5 stMonitorFails =
        some (stMonitorFails, [.call 0 5, .call 1 7], some 9) := by
  decide


/-- Claim C3 (amended): every listener L registered via `on` on an
ordinary (non-"error", non-ErrorMonitor) identifier is wrapped; when the
wrapped invocation's inner call fails with F during `emit(e, d)`, and the
`errorMonitor` and `"error"` channels hold raw plain listeners that
settle (successfully or rejecting) without mutating the registry, then:
F is first delivered to every `errorMonitor` listener; if every monitor
listener settles successfully, then when at least one listener is
registered on `"error"`, F is redelivered through `emit("error", F)` —
every `"error"` listener receives F — and the wrapped invocation of L
settles exactly as that redelivery settles (normally when every `"error"`
listener settles successfully, rejecting with the redelivery's first
failure otherwise); when no listener is registered on `"error"`, F is
re-raised so the wrapped invocation rejects with F.  If some monitor
listener fails, the wrapped invocation rejects with the monitor
emission's failure and no `"error"` redelivery happens.  The second
clause adds the surrounding-emit consequence in the particular
configuration where the wrapped L is the only listener on `e`: the
`emit(e, d)` aggregate settles the same way.  (Unamended, the claim is
refuted both by a failing monitor listener — see the counterexample —
and by a failing `"error"` listener, which this theorem covers without
any success assumption on the `"error"` channel.) -/
theorem c3_amended (env : Env) (st : EmState) (e : EventName) (w : Stored)
    (lid : Nat) (d F : Data) (ms es : List Stored)
    (he : isErrChannel e = false)
    (hew : w.errWrapped = true) (hb : w.beh = .plain lid)
    (hfail : env lid d = .fail F)
    (hms : lookupLs EventName.monitor st.registry = ms)
    (hes : lookupLs errName st.registry = es)
    (hmnd : ms.Nodup) (hesnd : es.Nodup)
    (hmi : ∀ x ∈ ms, rawInert env F x)
    (hei : ∀ x ∈ es, rawInert env F x)
    (fuel : Nat) (hfuel : fuel ≥ ms.length + es.length + 4) :
    (invokeL (fuel + 1) env e w d st =
      some (st,
        Ev.call lid d :: (ms.map (fun x => Ev.call (lidOf x.beh) F) ++
          (if chanFailure env F ms = none ∧ es ≠ [] then
            es.map (fun x => Ev.call (lidOf x.beh) F) else [])),
        match chanFailure env F ms with
        | some em => some em
        | none => if es = [] then some F else chanFailure env F es)) ∧
    (lookupLs e st.registry = [w] →
      emitF (fuel + 3) env e d st =
        some (st,
          Ev.call lid d :: (ms.map (fun x => Ev.call (lidOf x.beh) F) ++
            (if chanFailure env F ms = none ∧ es ≠ [] then
              es.map (fun x => Ev.call (lidOf x.beh) F) else [])),
          match chanFailure env F ms with
          | some em => some em
          | none => if es = [] then some F else chanFailure env F es)) := by
  have hmon := emitF_flatInert ms hms hmnd hmi fuel (by omega)
  have hmain : invokeL (fuel + 1) env e w d st =
      some (st,
        Ev.call lid d :: (ms.map (fun x => Ev.call (lidOf x.beh) F) ++
          (if chanFailure env F ms = none ∧ es ≠ [] then
            es.map (fun x => Ev.call (lidOf x.beh) F) else [])),
        match chanFailure env F ms with
        | some em => some em
        | none => if es = [] then some F else chanFailure env F es) := by
    rw [invokeL_succ]
    have hrun : runInner env e w d st = (st, [.call lid d], some F) := by
      simp [runInner, hb, applyEffect, hfail]
    rw [hrun]
    dsimp only
    rw [if_pos hew]
    cases hcf : chanFailure env F ms with
    | some em =>
      rw [hcf] at hmon
      rw [hmon]
      dsimp only
      simp [hcf]
    | none =>
      rw [hcf] at hmon
      rw [hmon]
      dsimp only
      by_cases hE : es = []
      · rw [if_neg (by rw [hes]; simp [hE])]
        simp [hcf, hE]
      · rw [if_pos (by rw [hes]; exact hE)]
        rw [emitF_flatInert es hes hesnd hei fuel (by omega)]
        dsimp only
        simp [hcf, hE]
  refine ⟨hmain, ?_⟩
  intro hw
  rw [show fuel + 3 = (fuel + 2) + 1 from rfl, emitF_succ,
    if_neg (by rw [hw]; simp)]
  rw [show fuel + 2 = (fuel + 1) + 1 from rfl, dispatchGo_succ]
  have hfind : (lookupLs e st.registry).find?
      (fun x => decide (x ∉ ([] : List Stored))) = some w := by
    rw [hw, List.find?_cons_of_pos _ (by simp)]
  rw [hfind]
  dsimp only
  rw [hmain]
  dsimp only
  rw [dispatchGo_done [w] hw _ (fun x hx => by simpa using hx) (by omega)]
  simp

/-- The probe state: a failing wrapped listener on "x", a succeeding raw
listener on the `errorMonitor` channel, and a raw listener on "error"
that itself rejects with 11. -/
def stErrListenerFails : EmState :=
  ⟨[(.str "x", [⟨.tok 0, true, .plain 0⟩]),
    (.monitor, [⟨.rawRef 1, false, .plain 1⟩]),
    (errName, [⟨.rawRef 2, false, .plain 2⟩])], [], 1⟩

def envErrListenerFails : Env := fun l _ =>
  if l = 0 then .fail 7 else if l = 2 then .fail 11 else .pure

theorem c3_amended_witness :
    invokeL 7 envErrListenerFails (.str "x") ⟨.tok 0, true, .plain 0⟩ 5
        stErrListenerFails =
      some (stErrListenerFails, [.call 0 5, .call 1 7, .call 2 7],
        some 11) ∧
    emitF 9 envErrListenerFails (.str "x") 5 stErrListenerFails =
      some (stErrListenerFails, [.call 0 5, .call 1 7, .call 2 7],
        some 11) := by
  have h := c3_amended envErrListenerFails stErrListenerFails (.str "x")
    ⟨.tok 0, true, .plain 0⟩ 0 5 7
    [⟨.rawRef 1, false, .plain 1⟩] [⟨.rawRef 2, false, .plain 2⟩]
    (by decide) rfl rfl rfl (by decide) (by decide) (by decide) (by decide)
    (by
      intro x hx
      simp at hx
      exact ⟨by rw [hx], 1, by rw [hx], Or.inl rfl⟩)
    (by
      intro x hx
      simp at hx
      exact ⟨by rw [hx], 2, by rw [hx], Or.inr ⟨11, rfl⟩⟩)
    6 (by decide)
  exact ⟨(h.1).trans (by decide), ((h.2 (by decide))).trans (by decide)⟩

/-- Two successive `on(e, L)` registrations of the same listener
reference from a fresh emitter. -/
def twiceOn (e : EventName) (lid : Nat) : EmState :=
  (onSingle (onSingle emptyState e lid false none).state e lid false none).state

/-- Claim C4 counterexample: registering the identical listener reference
twice on the ordinary identifier "x" does NOT collapse:
`eventListenerCount("x")` is 2 (each `on` call wrapped the listener in a
fresh closure, and the set stores the wrappers), and one `emit` invokes
the listener twice. -/
theorem c4_counterexample :
    eventListenerCount (twiceOn (.str "x") 0) (.str "x") = 2 ∧
      emitF 9 envPure (.str "x") 5 (twiceOn (.str "x") 0) =
        some (twiceOn (.str "x") 0, [.call 0 5, .call 0 5], none) := by
  decide

/-- Claim C4 (amended): duplicate registration of the identical listener
reference collapses to a single subscription only on the `"error"` /
`errorMonitor` channels, where `on` stores the raw reference (count 1,
one emit invokes the listener once).  On every ordinary identifier each
`on` call stores a fresh wrapper, so two registrations are two
subscriptions: count 2, one emit invokes the listener twice.  In the
legacy `EventEmitter`, which stores raw references for every identifier,
duplicates collapse everywhere (one entry, invoked once per emit). -/
theorem c4_amended (e : EventName) (lid : Nat) (d : Data) (env : Env)
    (lenv : LEnv) (he : isErrChannel e = false)
    (henv : env lid d = .pure) (hlenv : lenv lid d = none) :
    (eventListenerCount (twiceOn errName lid) errName = 1 ∧
      emitF 4 env errName d (twiceOn errName lid) =
        some (twiceOn errName lid, [.call lid d], none)) ∧
    (eventListenerCount (twiceOn e lid) e = 2 ∧
      emitF 5 env e d (twiceOn e lid) =
        some (twiceOn e lid, [.call lid d, .call lid d], none)) ∧
    (legacyGet (legacyOn (legacyOn legacyEmpty e lid) e lid) e = [lid] ∧
      legacyEmit lenv (legacyOn (legacyOn legacyEmpty e lid) e lid) e d =
        ([.call lid d], none)) := by
  have h1 : twiceOn errName lid =
      ⟨[(errName, [⟨.rawRef lid, false, .plain lid⟩])], [], 0⟩ := by
    simp [twiceOn, onSingle, ensureKey, mkStored, addStored, lookupLs,
      keyFind?, setAdd, keySet, hasKey, isErrChannel, emptyState]
  have h2 : twiceOn e lid =
      ⟨[(e, [⟨.tok 0, true, .plain lid⟩, ⟨.tok 1, true, .plain lid⟩])],
        [], 2⟩ := by
    simp [twiceOn, onSingle, ensureKey, mkStored, addStored, lookupLs,
      keyFind?, setAdd, keySet, hasKey, he, emptyState]
  have h3 : legacyOn (legacyOn legacyEmpty e lid) e lid = ⟨[(e, [lid])]⟩ := by
    simp [legacyOn, legacyGet, legacyEmpty, keyFind?, keySet]
  refine ⟨⟨?_, ?_⟩, ⟨?_, ?_⟩, ?_, ?_⟩
  · rw [h1]
    simp [eventListenerCount, lookupLs, keyFind?]
  · rw [h1]
    exact emitF_flat [⟨.rawRef lid, false, .plain lid⟩]
      (by simp [lookupLs, keyFind?]) (by simp)
      (by
        intro w hw2
        simp at hw2
        exact ⟨lid, by rw [hw2], henv⟩)
      4 (by simp)
  · rw [h2]
    simp [eventListenerCount, lookupLs, keyFind?]
  · rw [h2]
    exact emitF_flat
      [⟨.tok 0, true, .plain lid⟩, ⟨.tok 1, true, .plain lid⟩]
      (by simp [lookupLs, keyFind?]) (by simp)
      (by
        intro w hw2
        simp at hw2
        rcases hw2 with hw2 | hw2 <;> exact ⟨lid, by rw [hw2], henv⟩)
      5 (by simp)
  · rw [h3]
    simp [legacyGet, keyFind?]
  · rw [h3]
    simp [legacyEmit, keyFind?, hlenv]

theorem c4_amended_witness :
    isErrChannel (.str "x") = false ∧
      ((eventListenerCount (twiceOn errName 0) errName = 1 ∧
        emitF 4 envPure errName 3 (twiceOn errName 0) =
          some (twiceOn errName 0, [.call 0 3], none)) ∧
      (eventListenerCount (twiceOn (.str "x") 0) (.str "x") = 2 ∧
        emitF 5 envPure (.str "x") 3 (twiceOn (.str "x") 0) =
          some (twiceOn (.str "x") 0, [.call 0 3, .call 0 3], none)) ∧
      (legacyGet (legacyOn (legacyOn legacyEmpty (.str "x") 0) (.str "x") 0)
          (.str "x") = [0] ∧
        legacyEmit (fun _ _ => none)
          (legacyOn (legacyOn legacyEmpty (.str "x") 0) (.str "x") 0)
          (.str "x") 3 = ([.call 0 3], none))) :=
  ⟨by decide,
   c4_amended (.str "x") 0 3 envPure (fun _ _ => none)
     (by decide) rfl rfl⟩

/-- Claim C5: subscribing `once(e, L)` on a fresh emitter registers a
wrapper that removes itself before invoking L (the `once` behaviour of
the model performs its `off()` first, mirroring the source wrapper).
Emitting `e` once invokes L exactly once and empties the registry, so
`eventNames()` no longer contains `e`; any number of further `emit(e, _)`
calls invoke nothing.  The two-emits-in-one-microtask case collapses to
this sequential schedule because the wrapper removes itself synchronously
during the first dispatch, before the second emit snapshots the set. -/
theorem c5_once_at_most_once (env : Env) (e : EventName) (lid : Nat)
    (henv : ∀ dd : Data, env lid dd = .pure) (d : Data) (ds : List Data) :
    ∃ w st1 st2,
      onSingle emptyState e lid true none = ⟨some w, st1⟩ ∧
      w.beh = .once lid ∧
      emitF 4 env e d st1 = some (st2, [.call lid d], none) ∧
      st2.registry = [] ∧
      eventNames st2 = [] ∧
      emitMany env (ds.map (fun d2 => (4, e, d2))) st2 = some (st2, []) := by
  refine ⟨⟨.tok 0, !(isErrChannel e), .once lid⟩,
    ⟨[(e, [⟨.tok 0, !(isErrChannel e), .once lid⟩])], [], 1⟩,
    ⟨[], [], 1⟩, ?_, rfl, ?_, rfl, rfl, ?_⟩
  · simp [onSingle, ensureKey, mkStored, addStored, lookupLs, keyFind?,
      setAdd, keySet, hasKey, emptyState]
  · rw [emitF_succ, if_neg (by simp [lookupLs, keyFind?])]
    rw [dispatchGo_succ]
    rw [show (lookupLs e
        (⟨[(e, [⟨.tok 0, !(isErrChannel e), .once lid⟩])], [], 1⟩ :
          EmState).registry).find?
        (fun w => decide (w ∉ ([] : List Stored))) =
          some ⟨.tok 0, !(isErrChannel e), .once lid⟩ from by
      simp [lookupLs, keyFind?, List.find?]]
    dsimp only
    rw [invokeL_succ]
    have hoff : offOne
        ⟨[(e, [⟨.tok 0, !(isErrChannel e), .once lid⟩])], [], 1⟩ e
        ⟨.tok 0, !(isErrChannel e), .once lid⟩ = (⟨[], [], 1⟩ : EmState) := by
      simp [offOne, hasKey, lookupLs, keyFind?, keyDel]
    have hrun : runInner env e ⟨.tok 0, !(isErrChannel e), .once lid⟩ d
        ⟨[(e, [⟨.tok 0, !(isErrChannel e), .once lid⟩])], [], 1⟩ =
        ((⟨[], [], 1⟩ : EmState), [.call lid d], none) := by
      simp [runInner, hoff, applyEffect, henv d]
    rw [hrun]
    dsimp only
    rw [dispatchGo_done [] (by simp [lookupLs, keyFind?]) _ (by simp)
      (by omega)]
    rfl
  · exact emitMany_nilRegistry env e ds _ rfl

theorem c5_witness :
    ∃ w st1 st2,
      onSingle emptyState (.str "pre") 0 true none = ⟨some w, st1⟩ ∧
      w.beh = .once 0 ∧
      emitF 4 envPure (.str "pre") 3 st1 = some (st2, [.call 0 3], none) ∧
      st2.registry = [] ∧
      eventNames st2 = [] ∧
      emitMany envPure ([4, 5].map (fun d2 => (4, .str "pre", d2))) st2 =
        some (st2, []) :=
  c5_once_at_most_once envPure (.str "pre") 0 (fun _ => rfl) 3 [4, 5]


/-- One wrapped listener on "x" whose raw listener subscribes a second
listener to "x" when invoked. -/
def stDuringAdd : EmState := ⟨[(.str "x", [⟨.tok 0, true, .plain 0⟩])], [], 1⟩

def envDuringAdd : Env := fun l _ =>
  if l = 0 then .subscribeOn (.str "x") 1 else .pure

/-- Two wrapped listeners on "x"; the first removes the second when
invoked. -/
def stDuringRemove : EmState :=
  ⟨[(.str "x", [⟨.tok 0, true, .plain 0⟩, ⟨.tok 1, true, .plain 1⟩])], [], 2⟩

def envDuringRemove : Env := fun l _ =>
  if l = 0 then .unsub (.str "x") ⟨.tok 1, true, .plain 1⟩ else .pure

/-- Claim C6 counterexample: dispatch is NOT a snapshot.  `emit` iterates
the live set (`Array.from(listeners, l => l(eventData))`), so when the
first listener synchronously subscribes listener 1 to the same
identifier "x" during the dispatch, the freshly appended wrapper IS
invoked by that same in-flight dispatch: the trace is
`[call 0 5, call 1 5]`, where the claim requires listener 1 not to be
invoked. -/
theorem c6_counterexample :
    emitF 9 envDuringAdd (.str "x") 5 stDuringAdd =
      some (⟨[(.str "x",
          [⟨.tok 0, true, .plain 0⟩, ⟨.tok 1, true, .plain 1⟩])], [], 2⟩,
        [.call 0 5, .call 1 5], none) := by
  decide

/-- Claim C6 (amended): dispatch iterates the live listener set rather
than a snapshot.  (1) When no listener mutates the registry during the
dispatch, exactly the listeners registered at the moment `emit` begins
are invoked, in registration order.  (2) A subscription added for the
same identifier during dispatch by a synchronously running listener IS
invoked by the in-flight dispatch.  (3) A subscription removed during
dispatch before being reached is skipped. -/
theorem c6_amended (env : Env) (e : EventName) (d : Data) (st : EmState)
    (L : List Stored) (hL : lookupLs e st.registry = L) (hnd : L.Nodup)
    (hall : ∀ w ∈ L, purePlain env d w) (fuel : Nat)
    (hfuel : fuel ≥ L.length + 2) :
    emitF fuel env e d st =
        some (st, L.map (fun w => Ev.call (lidOf w.beh) d), none) ∧
    emitF 9 envDuringAdd (.str "x") 5 stDuringAdd =
      some (⟨[(.str "x",
          [⟨.tok 0, true, .plain 0⟩, ⟨.tok 1, true, .plain 1⟩])], [], 2⟩,
        [.call 0 5, .call 1 5], none) ∧
    emitF 9 envDuringRemove (.str "x") 5 stDuringRemove =
      some (⟨[(.str "x", [⟨.tok 0, true, .plain 0⟩])], [], 2⟩,
        [.call 0 5], none) :=
  ⟨emitF_flat L hL hnd hall fuel hfuel, by decide, by decide⟩

theorem c6_amended_witness :
    (emitF 9 envPure (.str "x") 5 stDuringAdd =
        some (stDuringAdd,
          ([⟨.tok 0, true, .plain 0⟩] : List Stored).map
            (fun w => Ev.call (lidOf w.beh) 5), none)) ∧
    emitF 9 envDuringAdd (.str "x") 5 stDuringAdd =
      some (⟨[(.str "x",
          [⟨.tok 0, true, .plain 0⟩, ⟨.tok 1, true, .plain 1⟩])], [], 2⟩,
        [.call 0 5, .call 1 5], none) ∧
    emitF 9 envDuringRemove (.str "x") 5 stDuringRemove =
      some (⟨[(.str "x", [⟨.tok 0, true, .plain 0⟩])], [], 2⟩,
        [.call 0 5], none) :=
  c6_amended envPure (.str "x") 5 stDuringAdd
    [⟨.tok 0, true, .plain 0⟩] (by decide) (by decide)
    (by
      intro w hw2
      simp at hw2
      exact ⟨0, by rw [hw2], rfl⟩)
    9 (by decide)

/-- Claim C7: the cancellation handle returned by `on(e, L)` is
`() => this.off(e, wrappedListener)`.  When L is the only listener for
`e`, invoking it once removes exactly that subscription: every
identifier looks up to the same listener list as before the `on` call,
`eventListenerCount(e)` is 0, `eventNames()` no longer contains `e`, and
invoking the handle a second time changes nothing (the state after two
calls equals the state after one). -/
theorem c7_cancellation_handle (st : EmState) (e : EventName) (lid : Nat)
    (hK : GoodKeys st) (h0 : lookupLs e st.registry = []) :
    ∃ w st1,
      onSingle st e lid false none = ⟨some w, st1⟩ ∧
      (∀ f, lookupLs f (offOne st1 e w).registry = lookupLs f st.registry) ∧
      eventListenerCount (offOne st1 e w) e = 0 ∧
      e ∉ eventNames (offOne st1 e w) ∧
      offOne (offOne st1 e w) e w = offOne st1 e w := by
  have hreg : (addStored (mkStored (ensureKey st e) e lid false).2 e
      (mkStored (ensureKey st e) e lid false).1).registry =
      keySet e [(mkStored (ensureKey st e) e lid false).1]
        (ensureKey st e).registry := by
    unfold addStored
    rw [registry_mkStored, lookupLs_ensureKey_self st e h0]
    rfl
  have hmain := offOne_fresh st _ e
    (mkStored (ensureKey st e) e lid false).1 hK h0 hreg
  refine ⟨(mkStored (ensureKey st e) e lid false).1,
    addStored (mkStored (ensureKey st e) e lid false).2 e
      (mkStored (ensureKey st e) e lid false).1,
    rfl, hmain.1, ?_, hmain.2.1, hmain.2.2⟩
  show (lookupLs e _).length = 0
  rw [hmain.1 e, h0]
  rfl

theorem c7_witness :
    ∃ w st1,
      onSingle emptyState (.str "pre") 0 false none = ⟨some w, st1⟩ ∧
      (∀ f, lookupLs f (offOne st1 (.str "pre") w).registry =
        lookupLs f emptyState.registry) ∧
      eventListenerCount (offOne st1 (.str "pre") w) (.str "pre") = 0 ∧
      (.str "pre") ∉ eventNames (offOne st1 (.str "pre") w) ∧
      offOne (offOne st1 (.str "pre") w) (.str "pre") w =
        offOne st1 (.str "pre") w :=
  c7_cancellation_handle emptyState (.str "pre") 0 (by decide) (by decide)

/-- Claim C8: the serial dispatch variant of the legacy `EventEmitter`.
Folding `on` over distinct listeners registers them in order (first
conjunct), and `emitSerial` awaits each listener in that order: when all
succeed every one is invoked in order; when the listeners split as
`pre ++ [lf] ++ post` with every listener of `pre` succeeding and `lf`
failing, exactly `pre` and `lf` are invoked, the call rejects with the
failure of `lf`, and the listeners of `post` are not invoked. -/
theorem c8_emitSerial (e : EventName) (lids : List Nat) (st : LegacyState)
    (lenv : LEnv) (d : Data) (ls : List Nat)
    (hnd : lids.Nodup) (hreg : keyFind? e st.table = some ls) :
    legacyGet (lids.foldl (fun a l => legacyOn a e l) legacyEmpty) e = lids ∧
    ((∀ l ∈ ls, lenv l d = none) →
      legacyEmitSerial lenv st e d = (ls.map (fun l => Ev.call l d), none)) ∧
    (∀ pre lf post err, ls = pre ++ lf :: post →
      (∀ l ∈ pre, lenv l d = none) → lenv lf d = some err →
      legacyEmitSerial lenv st e d =
        (pre.map (fun l => Ev.call l d) ++ [Ev.call lf d], some err)) := by
  refine ⟨?_, ?_, ?_⟩
  · have := legacyGet_fold e lids legacyEmpty hnd
      (by intro l hl; simp [legacyGet, legacyEmpty, keyFind?])
    simpa [legacyGet, legacyEmpty, keyFind?] using this
  · intro hall
    simp only [legacyEmitSerial, hreg]
    exact serialGo_allOk lenv d ls hall
  · intro pre lf post err hsplit hpre hf
    simp only [legacyEmitSerial, hreg, hsplit]
    exact serialGo_firstFail lenv d pre lf post err hpre hf

def lenvSecondFails : LEnv := fun l2 _ => if l2 = 1 then some 5 else none

theorem c8_witness :
    legacyGet ([0, 1, 2].foldl
        (fun a l => legacyOn a (.str "pre") l) legacyEmpty) (.str "pre") =
      [0, 1, 2] ∧
    ((∀ l ∈ [0, 1, 2], lenvSecondFails l (3 : Data) = none) →
      legacyEmitSerial lenvSecondFails
        ⟨[(.str "pre", [0, 1, 2])]⟩ (.str "pre") 3 =
          ([0, 1, 2].map (fun l => Ev.call l 3), none)) ∧
    (∀ pre lf post err, [0, 1, 2] = pre ++ lf :: post →
      (∀ l ∈ pre, lenvSecondFails l (3 : Data) = none) →
      lenvSecondFails lf (3 : Data) = some err →
      legacyEmitSerial lenvSecondFails
        ⟨[(.str "pre", [0, 1, 2])]⟩ (.str "pre") 3 =
          (pre.map (fun l => Ev.call l 3) ++ [Ev.call lf 3], some err)) :=
  c8_emitSerial (.str "pre") [0, 1, 2] ⟨[(.str "pre", [0, 1, 2])]⟩
    lenvSecondFails 3 [0, 1, 2] (by decide) (by decide)

/-- Claim C9: `wait(e, timeout)` registers a one-shot resolver through
`on`; when the timeout fires before any matching emission, the `onAbort`
handler first invokes the cancellation handle (removing the
subscription) and rejects with an `AbortError` naming `e`.  With no
other listener on `e`, afterwards `eventNames()` does not contain `e`,
the listener count for `e` is 0, and every identifier looks up to the
same listeners as before the `wait`. -/
theorem c9_wait_timeout (st : EmState) (e : EventName) (pid : Nat)
    (hK : GoodKeys st) (h0 : lookupLs e st.registry = []) :
    ∃ w st1,
      waitReg st e pid false = ⟨some (e, w), st1⟩ ∧
      w.beh = .resolveOnce pid ∧
      (waitAbortFire st1 e w).2 = .aborted [e] ∧
      e ∉ eventNames (waitAbortFire st1 e w).1 ∧
      eventListenerCount (waitAbortFire st1 e w).1 e = 0 ∧
      (∀ f, lookupLs f (waitAbortFire st1 e w).1.registry =
        lookupLs f st.registry) := by
  have hreg : (addStored (mkResolver (ensureKey st e) e pid false).2 e
      (mkResolver (ensureKey st e) e pid false).1).registry =
      keySet e [(mkResolver (ensureKey st e) e pid false).1]
        (ensureKey st e).registry := by
    unfold addStored
    rw [registry_mkResolver, lookupLs_ensureKey_self st e h0]
    rfl
  have hmain := offOne_fresh st _ e
    (mkResolver (ensureKey st e) e pid false).1 hK h0 hreg
  refine ⟨(mkResolver (ensureKey st e) e pid false).1,
    addStored (mkResolver (ensureKey st e) e pid false).2 e
      (mkResolver (ensureKey st e) e pid false).1,
    rfl, rfl, rfl, hmain.2.1, ?_, hmain.1⟩
  show eventListenerCount (offOne _ e _) e = 0
  show (lookupLs e _).length = 0
  rw [hmain.1 e, h0]
  rfl

theorem c9_witness :
    ∃ w st1,
      waitReg emptyState (.str "pre") 0 false = ⟨some (.str "pre", w), st1⟩ ∧
      w.beh = .resolveOnce 0 ∧
      (waitAbortFire st1 (.str "pre") w).2 = .aborted [.str "pre"] ∧
      (.str "pre") ∉ eventNames (waitAbortFire st1 (.str "pre") w).1 ∧
      eventListenerCount (waitAbortFire st1 (.str "pre") w).1 (.str "pre")
        = 0 ∧
      (∀ f, lookupLs f (waitAbortFire st1 (.str "pre") w).1.registry =
        lookupLs f emptyState.registry) :=
  c9_wait_timeout emptyState (.str "pre") 0 (by decide) (by decide)

/-- Claim C10: `race([])` with no signal matches neither the
single-identifier shortcut nor an abort: it subscribes no resolver
(handles empty), arms no abort hook, and leaves the registry unchanged,
so the returned promise can never settle: no sequence of subsequent
emits, on any identifier, ever produces a resolution of this promise
(given its id is fresh).  When a cancellation signal or timeout IS
supplied and fires, the promise rejects with an `AbortError` (naming the
empty identifier list). -/
theorem c10_empty_race (st : EmState) (pid : Nat) (h : PidFree pid st) :
    (raceReg st [] pid none).handles = some [] ∧
    (raceReg st [] pid none).abortArmed = false ∧
    (raceReg st [] pid none).state.registry = st.registry ∧
    (∀ env xs out, emitMany env xs (raceReg st [] pid none).state = some out →
      ∀ dd, Ev.resolve pid dd ∉ out.2) ∧
    (raceReg st [] pid (some false)).abortArmed = true ∧
    (raceAbortFire (raceReg st [] pid (some false)).state pid []).2 =
      Outcome.aborted [] := by
  refine ⟨rfl, rfl, rfl, ?_, rfl, rfl⟩
  intro env xs out hstep dd
  exact pidFree_emitMany xs
    (@pidFree_congr pid st (raceReg st [] pid none).state rfl h) hstep dd

theorem c10_witness :
    (raceReg emptyState [] 0 none).handles = some [] ∧
    (raceReg emptyState [] 0 none).abortArmed = false ∧
    (raceReg emptyState [] 0 none).state.registry = emptyState.registry ∧
    (∀ env xs out,
      emitMany env xs (raceReg emptyState [] 0 none).state = some out →
      ∀ dd, Ev.resolve 0 dd ∉ out.2) ∧
    (raceReg emptyState [] 0 (some false)).abortArmed = true ∧
    (raceAbortFire (raceReg emptyState [] 0 (some false)).state 0 []).2 =
      Outcome.aborted [] :=
  c10_empty_race emptyState 0 (by intro p hp; simp [emptyState] at hp)


end AsyncEE
